import Mathlib

/-!
Verification model of `src/owned_ptr.h`: a single-allocation owner/dependent
pointer pair.  The C++ code keeps, per heap `Block`, one `size_t` word
`ref_count` whose top bit (`owner_marker`) records "an owner handle claims
this block" and whose low bits count the live dependent handles, a deleter
function pointer, and the payload value.

The shallow embedding below represents a whole program run as a sequence of
handle operations (`Op`) acting on a machine state (`MState`) that tracks
every block ever allocated (with event counters for value-destructor
invocations and `free` calls) together with the storage pointers of every
owner and dependent handle.  Each C++ special member function becomes one
case of the `step` function; `ref_count` arithmetic is `Nat` arithmetic
modulo `2 ^ 64` exactly where the `size_t` word can wrap, and the
`& ~owner_marker` masking of the destructor / `num_deps` is `Nat.land` with
`owner_marker - 1`, just like the source.  Operations whose C++ counterpart
has undefined behaviour (using a destroyed handle, `ref_count++` through a
null `_storage`) or aborts via a failed `assert` have no defined `step`.
-/

namespace OwnedPtr

/-- `1ull << (sizeof(size_t) * 8u - 1u)` = `2 ^ 63`: the most significant
bit of the 64-bit reference count, set while an `owned_ptr` handle exists.
(Written as a numeral so that it reduces cheaply; `owner_marker_pow` below
proves it is `2 ^ 63`.) -/
def owner_marker : Nat := 9223372036854775808

/-- `2 ^ 64`, the modulus of `size_t` arithmetic, as a numeral;
`wordMod_pow` below proves it is `2 ^ 64`. -/
def wordMod : Nat := 18446744073709551616

/-- One heap block (`owned_ptr::Block`): the `Control` header's reference
count plus bookkeeping for the events the claims talk about.
`valueDestroys` counts invocations of the stored deleter (the value's
destructor), `frees` counts `delete_block`/`free` calls on this storage,
and `value` is the payload (a `String`, standing in for `T`). -/
structure Block where
  ref_count : Nat
  valueDestroys : Nat
  frees : Nat
  value : String
deriving DecidableEq

/-- `ref_count >= owner_marker`, i.e. `Control::has_owner`. -/
def Block.has_owner (B : Block) : Bool := decide (owner_marker ≤ B.ref_count)

/-- A handle slot: `live s` is a handle object whose `_storage` member is
`s` (`none` = `nullptr`); `dead` marks a handle whose destructor has run. -/
inductive HandleState
  | live (storage : Option Nat)
  | dead
deriving DecidableEq

/-- A dependent handle slot: `isConst` tells whether the object is a
`dep_ptr_const` (`true`) or a `dep_ptr` (`false`). -/
structure DepHandle where
  isConst : Bool
  hs : HandleState
deriving DecidableEq

/-- The machine state: all blocks ever allocated (a block is never removed
from the list; its `frees` counter records reclamation), plus the owner
handles and dependent handles ever constructed. -/
structure MState where
  blocks : List Block
  owners : List HandleState
  deps : List DepHandle
deriving DecidableEq

/-- The operations a client program can perform on the handles. Indices
refer to positions in the `owners` / `deps` lists. -/
inductive Op
  | newOwner (v : String)
  | destroyOwner (i : Nat)
  | moveOwnerCtor (i : Nat)
  | moveOwnerAssign (i j : Nat)
  | makeDep (i : Nat) (isConst : Bool)
  | copyDepCtor (j : Nat)
  | copyDepAssign (j k : Nat)
  | moveDepCtor (j : Nat)
  | moveDepAssign (j k : Nat)
  | destroyDep (j : Nat)
deriving DecidableEq

/-- `ref_count++` on the `size_t` word. -/
def incRef (B : Block) : Block := { B with ref_count := (B.ref_count + 1) % wordMod }

/-- `ref_count--` on the `size_t` word. -/
def decRef (B : Block) : Block := { B with ref_count := (B.ref_count + (wordMod - 1)) % wordMod }

/-- `ref_count() = ref_count() & ~owner_marker`: clear the owner bit. -/
def clearOwnerBit (B : Block) : Block := { B with ref_count := B.ref_count &&& (owner_marker - 1) }

/-- Invoke the stored deleter: `get_target(storage).~T()`. -/
def runDeleter (B : Block) : Block := { B with valueDestroys := B.valueDestroys + 1 }

/-- `delete_block(storage)`: destroy the `Control` and `free` the memory. -/
def freeBlock (B : Block) : Block := { B with frees := B.frees + 1 }

/-- The common tail of `~dep_ptr`/`~dep_ptr_const` and of the temporary's
destruction inside copy assignment: `ref_count--` followed by
`if (!ref_count) delete_block(...)`. -/
def depRelease (B : Block) : Block :=
  let B1 := decRef B
  if B1.ref_count = 0 then freeBlock B1 else B1

/-- One step of the machine.  `rwmf` is `ErrorHandler::reset_when_moved_from`.
`none` means the operation is not defined there: the handle index does not
name a live handle of the right class, the C++ would have undefined
behaviour (e.g. copying a null dependent dereferences `nullptr`), or a
`check_condition` assertion fails and aborts the program
(constructing a dependent from a moved-from owner). -/
def step (rwmf : Bool) (st : MState) : Op → Option MState
  | .newOwner v =>
      -- owned_ptr::owned_ptr: allocate, `new (_storage) Control{owner_marker, &deleter}`,
      -- construct the value in place.
      some { st with
        blocks := st.blocks ++ [⟨owner_marker, 0, 0, v⟩],
        owners := st.owners ++ [.live (some st.blocks.length)] }
  | .destroyOwner i =>
      -- ~owned_ptr: `if (_storage) { clear marker; deleter; if (!ref_count) delete_block; }`
      match st.owners[i]? with
      | some (.live none) => some { st with owners := st.owners.set i .dead }
      | some (.live (some b)) =>
          match st.blocks[b]? with
          | some B =>
              let B1 := runDeleter (clearOwnerBit B)
              let B2 := if B1.ref_count = 0 then freeBlock B1 else B1
              some { st with blocks := st.blocks.set b B2, owners := st.owners.set i .dead }
          | none => none
      | _ => none
  | .moveOwnerCtor i =>
      -- owned_ptr(owned_ptr&&): take the storage, null the source.
      match st.owners[i]? with
      | some (.live s) =>
          some { st with owners := (st.owners.set i (.live none)) ++ [.live s] }
      | _ => none
  | .moveOwnerAssign i j =>
      -- owned_ptr::operator=(owned_ptr&&): swap(*this, other).
      match st.owners[i]?, st.owners[j]? with
      | some (.live si), some (.live sj) =>
          some { st with owners := (st.owners.set i (.live sj)).set j (.live si) }
      | _, _ => none
  | .makeDep i c =>
      -- owned_ptr::make_dep → dep_ptr/dep_ptr_const constructor from the owner:
      -- check_condition(_storage, "owned_ptr has been moved from"); ref_count++.
      match st.owners[i]? with
      | some (.live (some b)) =>
          match st.blocks[b]? with
          | some B => some { st with
              blocks := st.blocks.set b (incRef B),
              deps := st.deps ++ [⟨c, .live (some b)⟩] }
          | none => none
      | _ => none
  | .copyDepCtor j =>
      -- dep_ptr(const dep_ptr&): copy the storage, ref_count++ (no null check:
      -- copying an empty dependent dereferences nullptr and is undefined).
      match st.deps[j]? with
      | some ⟨c, .live (some b)⟩ =>
          match st.blocks[b]? with
          | some B => some { st with
              blocks := st.blocks.set b (incRef B),
              deps := st.deps ++ [⟨c, .live (some b)⟩] }
          | none => none
      | _ => none
  | .copyDepAssign j k =>
      -- dep_ptr::operator=(const dep_ptr&): `dep_ptr tmp(other); swap(*this, tmp);`
      -- then tmp's destructor releases the old binding of *this.
      match st.deps[j]?, st.deps[k]? with
      | some ⟨cj, .live sj⟩, some ⟨ck, .live (some b)⟩ =>
          if cj = ck then
            match st.blocks[b]? with
            | some B =>
                let st1 : MState := { st with blocks := st.blocks.set b (incRef B) }
                let st2 : MState := { st1 with deps := st1.deps.set j ⟨cj, .live (some b)⟩ }
                match sj with
                | none => some st2
                | some a =>
                    match st2.blocks[a]? with
                    | some Ba => some { st2 with blocks := st2.blocks.set a (depRelease Ba) }
                    | none => none
            | none => none
          else none
      | _, _ => none
  | .moveDepCtor j =>
      -- dep_ptr(dep_ptr&&): take the storage; if reset_when_moved_from, null the
      -- source, else ref_count++ (undefined if the source is empty).
      match st.deps[j]? with
      | some ⟨c, .live s⟩ =>
          if rwmf then
            some { st with deps := (st.deps.set j ⟨c, .live none⟩) ++ [⟨c, .live s⟩] }
          else
            match s with
            | some b =>
                match st.blocks[b]? with
                | some B => some { st with
                    blocks := st.blocks.set b (incRef B),
                    deps := st.deps ++ [⟨c, .live (some b)⟩] }
                | none => none
            | none => none
      | _ => none
  | .moveDepAssign j k =>
      -- dep_ptr::operator=(dep_ptr&&): swap if reset_when_moved_from, else
      -- (for this != &other) overwrite the storage and ref_count++.
      match st.deps[j]?, st.deps[k]? with
      | some ⟨cj, .live sj⟩, some ⟨ck, .live sk⟩ =>
          if cj = ck then
            if rwmf then
              some { st with deps := (st.deps.set j ⟨cj, .live sk⟩).set k ⟨ck, .live sj⟩ }
            else if j = k then
              some st
            else
              match sk with
              | some b =>
                  match st.blocks[b]? with
                  | some B => some { st with
                      blocks := st.blocks.set b (incRef B),
                      deps := st.deps.set j ⟨cj, .live (some b)⟩ }
                  | none => none
              | none => none
          else none
      | _, _ => none
  | .destroyDep j =>
      -- ~dep_ptr/~dep_ptr_const: `if (!_storage) return; ref_count--;
      -- if (!ref_count) delete_block(_storage);`
      match st.deps[j]? with
      | some ⟨c, .live none⟩ => some { st with deps := st.deps.set j ⟨c, .dead⟩ }
      | some ⟨c, .live (some b)⟩ =>
          match st.blocks[b]? with
          | some B => some { st with
              blocks := st.blocks.set b (depRelease B),
              deps := st.deps.set j ⟨c, .dead⟩ }
          | none => none
      | _ => none

/-- The empty initial state: no blocks, no handles. -/
def initState : MState := ⟨[], [], []⟩

/-- Run a list of operations from a state. -/
def runFrom (rwmf : Bool) : MState → List Op → Option MState
  | st, [] => some st
  | st, op :: tr =>
      match step rwmf st op with
      | some st2 => runFrom rwmf st2 tr
      | none => none

/-- `st` is the state of the machine after the program `tr`. -/
def Reaches (rwmf : Bool) (tr : List Op) (st : MState) : Prop :=
  runFrom rwmf initState tr = some st

/-- The outcome of a dereference / member access: which `check_condition`
call (if any) receives a failing condition, or the value reached. -/
inductive Access
  | fault_moved_from
  | fault_owner_deleted
  | ok (v : String)
deriving DecidableEq

/-- `owned_ptr::operator T* / operator const T* / operator->` (all four
overloads have the same body): `check_condition(_storage, "owned_ptr has
been moved from")`, then return `&get_target(_storage)`. -/
def owned_deref (st : MState) (i : Nat) : Option Access :=
  match st.owners[i]? with
  | some (.live none) => some .fault_moved_from
  | some (.live (some b)) => (st.blocks[b]?).map fun B => .ok B.value
  | _ => none

/-- `dep_ptr::operator T* / operator const T* / operator->`:
`check_condition(_storage, "dep_ptr has been moved from")`, then
`check_condition(has_owner(), "owner has been deleted")`, then the target. -/
def dep_deref (st : MState) (j : Nat) : Option Access :=
  match st.deps[j]? with
  | some ⟨false, .live none⟩ => some .fault_moved_from
  | some ⟨false, .live (some b)⟩ =>
      (st.blocks[b]?).map fun B =>
        if B.has_owner then .ok B.value else .fault_owner_deleted
  | _ => none

/-- `dep_ptr_const::operator const T* / operator->`: same two checks as the
mutable variant, read-only access. -/
def dep_const_deref (st : MState) (j : Nat) : Option Access :=
  match st.deps[j]? with
  | some ⟨true, .live none⟩ => some .fault_moved_from
  | some ⟨true, .live (some b)⟩ =>
      (st.blocks[b]?).map fun B =>
        if B.has_owner then .ok B.value else .fault_owner_deleted
  | _ => none

/-- `owned_ptr::num_deps`: `ref_count() & ~owner_marker` (reads through
`_storage`, so it is undefined on a moved-from owner). -/
def num_deps (st : MState) (i : Nat) : Option Nat :=
  match st.owners[i]? with
  | some (.live (some b)) => (st.blocks[b]?).map fun B => B.ref_count &&& (owner_marker - 1)
  | _ => none

/-- `owned_ptr_error_handler::reset_when_moved_from` in the `#ifndef NDEBUG`
branch (debug builds): `static constexpr bool reset_when_moved_from{true}`. -/
def reset_when_moved_from_debug : Bool := true

/-- `owned_ptr_error_handler::reset_when_moved_from` in the `#else` branch
(release builds, NDEBUG defined): also `{true}` in the source, although the
comment above it speaks of leaving moved-from objects valid. -/
def reset_when_moved_from_release : Bool := true

/-- The discipline the default `owned_ptr_error_handler` selects, as a
function of whether `NDEBUG` is defined. -/
def default_reset_when_moved_from (ndebug_defined : Bool) : Bool :=
  if ndebug_defined then reset_when_moved_from_release else reset_when_moved_from_debug

/-- Number of live owner handles whose `_storage` points at block `b`. -/
def ownersOn (st : MState) (b : Nat) : Nat :=
  st.owners.countP fun h => h = HandleState.live (some b)

/-- Number of live dependent handles whose `_storage` points at block `b`
(in the fast discipline this includes moved-from "zombie" dependents, which
still point at the block and still hold a count unit). -/
def depsOn (st : MState) (b : Nat) : Nat :=
  st.deps.countP fun d => d.hs = HandleState.live (some b)

/-- `op` is an operation on dependent handles only. -/
def isDepOp : Op → Bool
  | .makeDep _ _ => true
  | .copyDepCtor _ => true
  | .copyDepAssign _ _ => true
  | .moveDepCtor _ => true
  | .moveDepAssign _ _ => true
  | .destroyDep _ => true
  | _ => false

/-- Fallback block for total lookups in concrete computations. -/
def blk0 : Block := ⟨0, 0, 0, ""⟩

/-- The state a program reaches from the empty initial state (the initial
state itself when the run is undefined). -/
def stateAfter (rwmf : Bool) (tr : List Op) : MState :=
  (runFrom rwmf initState tr).getD initState

/-- Total block lookup for concrete computations. -/
def blockAt (st : MState) (b : Nat) : Block := (st.blocks[b]?).getD blk0

/-- Scenario C of the spec: Owner A holds "Foo", Owner B holds "Bar", then
`A = move(B)`. -/
def trScenarioC : List Op := [.newOwner "Foo", .newOwner "Bar", .moveOwnerAssign 0 1]

/-- Scenario C continued: the moved-from owner B is destroyed. -/
def trScenarioC2 : List Op :=
  [.newOwner "Foo", .newOwner "Bar", .moveOwnerAssign 0 1, .destroyOwner 1]

/-- Fast-discipline run that move-assigns one dependent onto another bound
dependent and then destroys every handle. -/
def trFastAssign : List Op :=
  [.newOwner "v", .makeDep 0 false, .makeDep 0 false, .moveDepAssign 0 1,
   .destroyDep 0, .destroyDep 1, .destroyOwner 0]

/-- Safe-discipline run that move-assigns one bound dependent onto another. -/
def trSafeAssign : List Op :=
  [.newOwner "v", .makeDep 0 false, .makeDep 0 false, .moveDepAssign 0 1]

/-- Fast-discipline prefix: owner, two dependents, fast move-assignment of
dependent 1 onto dependent 0, then dependent 0 destroyed — leaving exactly
one live dependent bound to the block while the owner is still alive. -/
def trC2Pre : List Op :=
  [.newOwner "v", .makeDep 0 false, .makeDep 0 false, .moveDepAssign 0 1, .destroyDep 0]

/-- The prefix above, then the owner is destroyed (one dependent alive) and
finally that last dependent is destroyed. -/
def trC2Leak : List Op := trC2Pre ++ [.destroyOwner 0, .destroyDep 1]

/-- Owner with one mutable and one read-only dependent, then the owner is
destroyed. -/
def trOwnerGone : List Op :=
  [.newOwner "Foo", .makeDep 0 false, .makeDep 0 true, .destroyOwner 0]

/-- A single owner, one dependent, owner destroyed. -/
def trOneDep : List Op := [.newOwner "Foo", .makeDep 0 false, .destroyOwner 0]

/-- Fast-discipline run with a dependent move-construction and all handles
destroyed (no move-assignment anywhere). -/
def trFastCtor : List Op :=
  [.newOwner "v", .makeDep 0 false, .moveDepCtor 0, .destroyDep 0, .destroyDep 1,
   .destroyOwner 0]

/-- Moved-from owner and moved-from dependent (safe discipline). -/
def trMovedFrom : List Op :=
  [.newOwner "Foo", .moveOwnerCtor 0, .makeDep 1 false, .moveDepCtor 0]

/-- A single live owner. -/
def trOne : List Op := [.newOwner "Foo"]

/-- A live owner with one live dependent. -/
def trOneLiveDep : List Op := [.newOwner "v", .makeDep 0 false]

/-! ## Field equations of the block transformers -/

/-- `ownersOn` only reads the owner-handle list. -/
theorem ownersOn_mk {bl bl2 : List Block} {ow : List HandleState} {dp dp2 : List DepHandle}
    (b : Nat) : ownersOn ⟨bl, ow, dp⟩ b = ownersOn ⟨bl2, ow, dp2⟩ b := rfl

/-- `depsOn` only reads the dependent-handle list. -/
theorem depsOn_mk {bl bl2 : List Block} {ow ow2 : List HandleState} {dp : List DepHandle}
    (b : Nat) : depsOn ⟨bl, ow, dp⟩ b = depsOn ⟨bl2, ow2, dp⟩ b := rfl

/-- A state with the original dependent-handle list has the original
dependent counts. -/
theorem depsOn_with {st : MState} {bl : List Block} {ow : List HandleState} (b : Nat) :
    depsOn ⟨bl, ow, st.deps⟩ b = depsOn st b := rfl

/-- A state with the original owner-handle list has the original owner
counts. -/
theorem ownersOn_with {st : MState} {bl : List Block} {dp : List DepHandle} (b : Nat) :
    ownersOn ⟨bl, st.owners, dp⟩ b = ownersOn st b := rfl

@[simp] theorem incRef_ref_count_def (B : Block) :
    (incRef B).ref_count = (B.ref_count + 1) % wordMod := rfl
@[simp] theorem incRef_valueDestroys (B : Block) : (incRef B).valueDestroys = B.valueDestroys :=
  rfl
@[simp] theorem incRef_frees (B : Block) : (incRef B).frees = B.frees := rfl
@[simp] theorem incRef_value (B : Block) : (incRef B).value = B.value := rfl

@[simp] theorem decRef_ref_count_def (B : Block) :
    (decRef B).ref_count = (B.ref_count + (wordMod - 1)) % wordMod := rfl
@[simp] theorem decRef_valueDestroys (B : Block) : (decRef B).valueDestroys = B.valueDestroys := by
  cases B
  rfl
@[simp] theorem decRef_frees (B : Block) : (decRef B).frees = B.frees := by
  cases B
  rfl
@[simp] theorem decRef_value (B : Block) : (decRef B).value = B.value := by
  cases B
  rfl

@[simp] theorem clearOwnerBit_ref_count_def (B : Block) :
    (clearOwnerBit B).ref_count = B.ref_count &&& (owner_marker - 1) := rfl
@[simp] theorem clearOwnerBit_valueDestroys (B : Block) :
    (clearOwnerBit B).valueDestroys = B.valueDestroys := rfl
@[simp] theorem clearOwnerBit_frees (B : Block) : (clearOwnerBit B).frees = B.frees := rfl
@[simp] theorem clearOwnerBit_value (B : Block) : (clearOwnerBit B).value = B.value := rfl

@[simp] theorem runDeleter_ref_count (B : Block) : (runDeleter B).ref_count = B.ref_count := rfl
@[simp] theorem runDeleter_valueDestroys (B : Block) :
    (runDeleter B).valueDestroys = B.valueDestroys + 1 := rfl
@[simp] theorem runDeleter_frees (B : Block) : (runDeleter B).frees = B.frees := rfl
@[simp] theorem runDeleter_value (B : Block) : (runDeleter B).value = B.value := rfl

@[simp] theorem freeBlock_ref_count (B : Block) : (freeBlock B).ref_count = B.ref_count := rfl
@[simp] theorem freeBlock_valueDestroys (B : Block) :
    (freeBlock B).valueDestroys = B.valueDestroys := rfl
@[simp] theorem freeBlock_frees (B : Block) : (freeBlock B).frees = B.frees + 1 := rfl
@[simp] theorem freeBlock_value (B : Block) : (freeBlock B).value = B.value := rfl

@[simp] theorem depRelease_valueDestroys (B : Block) :
    (depRelease B).valueDestroys = B.valueDestroys := by
  cases B
  simp only [depRelease]
  split <;> rfl

@[simp] theorem depRelease_value (B : Block) : (depRelease B).value = B.value := by
  cases B
  simp only [depRelease]
  split <;> rfl

/-! ## Numeral values of the word constants -/

theorem owner_marker_pow : owner_marker = 2 ^ 63 := by norm_num [owner_marker]

theorem wordMod_pow : wordMod = 2 ^ 64 := by norm_num [wordMod]

theorem owner_marker_eq : owner_marker = 9223372036854775808 := rfl

theorem wordMod_eq : wordMod = 18446744073709551616 := rfl

/-- Clearing the owner bit is reduction modulo `2 ^ 63`. -/
theorem land_mask_eq_mod (a : Nat) : a &&& (owner_marker - 1) = a % owner_marker := by
  have h := Nat.and_pow_two_sub_one_eq_mod a 63
  rw [owner_marker_pow]
  exact h

/-! ## List counting helpers -/

/-- Updating index `i` of a list changes `countP` by replacing the old
element's contribution with the new one's. -/
theorem countP_set_eq {α : Type} (p : α → Bool) :
    ∀ (l : List α) (i : Nat) (x a : α), l[i]? = some a →
      (l.set i x).countP p + (if p a then 1 else 0)
        = l.countP p + (if p x then 1 else 0)
  | [], i, x, a, h => by simp at h
  | y :: ys, 0, x, a, h => by
      simp only [List.getElem?_cons_zero, Option.some.injEq] at h
      subst h
      simp only [List.set, List.countP_cons]
      omega
  | y :: ys, i + 1, x, a, h => by
      simp only [List.getElem?_cons_succ] at h
      have hih := countP_set_eq p ys i x a h
      simp only [List.set, List.countP_cons]
      omega

/-- A successful indexed lookup in a `set` list is either the written value
(at the written index) or an untouched element. -/
theorem set_lookup_cases {α : Type} {l : List α} {i j : Nat} {x a : α}
    (h : (l.set i x)[j]? = some a) :
    (i = j ∧ a = x ∧ j < l.length) ∨ (i ≠ j ∧ l[j]? = some a) := by
  rcases eq_or_ne i j with hij | hij
  · subst hij
    have hlen : i < l.length := by
      by_contra hlen
      rw [List.getElem?_eq_none (by simpa using Nat.le_of_not_lt hlen)] at h
      exact Option.noConfusion h
    rw [List.getElem?_set_self hlen] at h
    exact Or.inl ⟨rfl, ((Option.some.injEq _ _).mp h).symm, hlen⟩
  · rw [List.getElem?_set_ne hij] at h
    exact Or.inr ⟨hij, h⟩

/-- A successful lookup in `l ++ [x]` is either a lookup in `l` or the new
element at index `l.length`. -/
theorem append_singleton_lookup {α : Type} {l : List α} {x a : α} {j : Nat}
    (h : (l ++ [x])[j]? = some a) :
    l[j]? = some a ∨ (j = l.length ∧ a = x) := by
  rcases Nat.lt_or_ge j l.length with hj | hj
  · rw [List.getElem?_append_left hj] at h
    exact Or.inl h
  · rw [List.getElem?_append_right hj] at h
    rcases Nat.lt_or_ge (j - l.length) 1 with h1 | h1
    · have hj0 : j - l.length = 0 := by omega
      rw [hj0] at h
      simp only [List.getElem?_cons_zero, Option.some.injEq] at h
      exact Or.inr ⟨by omega, h.symm⟩
    · rw [List.getElem?_eq_none (by simpa using h1)] at h
      exact Option.noConfusion h

/-- An element found by lookup satisfies `countP`-positivity for any
predicate it satisfies. -/
theorem countP_pos_of_lookup {α : Type} {p : α → Bool} {l : List α} {i : Nat} {a : α}
    (h : l[i]? = some a) (hp : p a = true) : 0 < l.countP p := by
  rw [List.countP_pos_iff]
  exact ⟨a, List.getElem?_mem h, hp⟩

/-! ## The reachability invariant

`BlockOk bal n st b B` spells out, for a block `B` sitting at index `b`,
the bit-packed counting protocol: as long as the block is not freed, its
`ref_count` word is `ownersOn * owner_marker + u` where `u` is the number
of dependent-count units.  Every live dependent handle bound to the block
holds one unit (`depsOn ≤ u`); in the safe discipline (or in fast-discipline
runs that never move-assign a dependent) the accounting is exact
(`bal → u = depsOn`).  The value has been destroyed exactly when no owner
claims the block, and a freed block has no handles left and its value
destroyed.  `u ≤ n` bounds the units by the number of executed operations,
which keeps the dependent count from ever colliding with the owner bit in
runs of fewer than `2 ^ 63` operations. -/

structure BlockOk (bal : Prop) (n : Nat) (st : MState) (b : Nat) (B : Block) : Prop where
  frees_le : B.frees ≤ 1
  alloc : B.frees = 0 → ∃ u, u ≤ n ∧ depsOn st b ≤ u ∧ (bal → u = depsOn st b) ∧
    0 < ownersOn st b + u ∧ ownersOn st b ≤ 1 ∧
    B.ref_count = ownersOn st b * owner_marker + u ∧
    B.valueDestroys = 1 - ownersOn st b
  freed : B.frees = 1 → ownersOn st b = 0 ∧ depsOn st b = 0 ∧ B.valueDestroys = 1

/-- The machine invariant: live handles point inside the block list, and
every block satisfies its counting protocol. -/
structure MInv (bal : Prop) (n : Nat) (st : MState) : Prop where
  ownerRange : ∀ (i b : Nat), st.owners[i]? = some (HandleState.live (some b)) → b < st.blocks.length
  depRange : ∀ (j : Nat) (d : DepHandle) (b : Nat), st.deps[j]? = some d → d.hs = HandleState.live (some b) →
    b < st.blocks.length
  blockOk : ∀ (b : Nat) (B : Block), st.blocks[b]? = some B → BlockOk bal n st b B

theorem MInv.initial (bal : Prop) (n : Nat) : MInv bal n initState := by
  constructor <;> intro a <;> intros <;> simp_all [initState]

/-- A live owner handle bound to `b` contributes to `ownersOn`. -/
theorem ownersOn_pos {st : MState} {i b : Nat}
    (h : st.owners[i]? = some (HandleState.live (some b))) : 0 < ownersOn st b :=
  countP_pos_of_lookup h (by simp)

/-- A live dependent handle bound to `b` contributes to `depsOn`. -/
theorem depsOn_pos {st : MState} {j b : Nat} {d : DepHandle}
    (h : st.deps[j]? = some d) (hb : d.hs = HandleState.live (some b)) : 0 < depsOn st b :=
  countP_pos_of_lookup h (by simp [hb])

/-- A block some live handle is bound to has not been freed. -/
theorem frees_eq_zero_of_bound {bal : Prop} {n : Nat} {st : MState} {b : Nat} {B : Block}
    (hInv : MInv bal n st) (hB : st.blocks[b]? = some B)
    (hbound : 0 < ownersOn st b + depsOn st b) : B.frees = 0 := by
  have hOk := hInv.blockOk b B hB
  have hle := hOk.frees_le
  rcases Nat.lt_or_ge B.frees 1 with h | h
  · omega
  · have h1 : B.frees = 1 := by omega
    have := hOk.freed h1
    omega

theorem countP_singleton {α : Type} (p : α → Bool) (x : α) :
    [x].countP p = if p x then 1 else 0 := by
  simp [List.countP_cons]

/-- A block whose two handle counts are unchanged keeps its `BlockOk`. -/
theorem BlockOk.transfer {bal : Prop} {n nn : Nat} {st st2 : MState} {b : Nat} {B : Block}
    (hOk : BlockOk bal n st b B) (hn : n ≤ nn)
    (ho : ownersOn st2 b = ownersOn st b) (hd : depsOn st2 b = depsOn st b) :
    BlockOk bal nn st2 b B := by
  refine ⟨hOk.frees_le, ?_, ?_⟩
  · intro hf
    rcases hOk.alloc hf with ⟨u, hu1, hu2, hu3, hu4, hu5, hu6, hu7⟩
    exact ⟨u, by omega, by rw [hd]; exact hu2, fun hb => by rw [hd]; exact hu3 hb,
      by rw [ho]; exact hu4, by rw [ho]; exact hu5, by rw [ho]; exact hu6,
      by rw [ho]; exact hu7⟩
  · intro hf
    have h := hOk.freed hf
    exact ⟨by rw [ho]; exact h.1, by rw [hd]; exact h.2.1, h.2.2⟩

/-- No owner handle is bound to an index at or past the end of the block
list. -/
theorem ownersOn_eq_zero_of_ge {bal : Prop} {n : Nat} {st : MState} {L : Nat}
    (hInv : MInv bal n st) (hL : st.blocks.length ≤ L) : ownersOn st L = 0 := by
  rw [ownersOn, List.countP_eq_zero]
  intro h hmem hp
  rcases List.getElem?_of_mem hmem with ⟨i, hi⟩
  simp only [decide_eq_true_eq] at hp
  subst hp
  exact absurd (hInv.ownerRange i L hi) (by omega)

/-- No dependent handle is bound to an index at or past the end of the
block list. -/
theorem depsOn_eq_zero_of_ge {bal : Prop} {n : Nat} {st : MState} {L : Nat}
    (hInv : MInv bal n st) (hL : st.blocks.length ≤ L) : depsOn st L = 0 := by
  rw [depsOn, List.countP_eq_zero]
  intro d hmem hp
  rcases List.getElem?_of_mem hmem with ⟨j, hj⟩
  simp only [decide_eq_true_eq] at hp
  exact absurd (hInv.depRange j d L hj hp) (by omega)

/-! ## Invariant preservation, one lemma per `step` branch -/

theorem inv_newOwner {bal : Prop} {n : Nat} {st : MState} (hInv : MInv bal n st) (v : String) :
    MInv bal (n + 1)
      { st with blocks := st.blocks ++ [⟨owner_marker, 0, 0, v⟩],
                owners := st.owners ++ [.live (some st.blocks.length)] } := by
  constructor
  · intro i b h
    simp only [List.length_append, List.length_cons, List.length_nil]
    rcases append_singleton_lookup h with h | ⟨-, h⟩
    · exact Nat.lt_succ_of_lt (hInv.ownerRange i b h)
    · simp only [HandleState.live.injEq, Option.some.injEq] at h
      omega
  · intro j d b hj hb
    simp only [List.length_append, List.length_cons, List.length_nil]
    exact Nat.lt_succ_of_lt (hInv.depRange j d b hj hb)
  · intro b B hB
    have hdeps : depsOn { st with
                  blocks := st.blocks ++ [⟨owner_marker, 0, 0, v⟩],
                  owners := st.owners ++ [.live (some st.blocks.length)] } b = depsOn st b := rfl
    have howners : ∀ b', ownersOn { st with
                  blocks := st.blocks ++ [⟨owner_marker, 0, 0, v⟩],
                  owners := st.owners ++ [.live (some st.blocks.length)] } b'
        = ownersOn st b' + (if st.blocks.length = b' then 1 else 0) := by
      intro b'
      simp only [ownersOn, List.countP_append, countP_singleton]
      congr 1
      simp
    rcases append_singleton_lookup hB with hB | ⟨hbL, hBv⟩
    · have hbl : b < st.blocks.length := by
        by_contra hc
        rw [List.getElem?_eq_none (by omega)] at hB
        exact Option.noConfusion hB
      exact (hInv.blockOk b B hB).transfer (by omega)
        (by rw [howners, if_neg (by omega), Nat.add_zero]) hdeps
    · subst hbL hBv
      have h0 : ownersOn st st.blocks.length = 0 := ownersOn_eq_zero_of_ge hInv (le_refl _)
      have hd0 : depsOn st st.blocks.length = 0 := depsOn_eq_zero_of_ge hInv (le_refl _)
      have ho2 := howners st.blocks.length
      rw [if_pos rfl, h0] at ho2
      rw [hd0] at hdeps
      refine ⟨by simp, fun _ => ?_, fun hf => absurd hf (by simp)⟩
      exact ⟨0, by omega, by rw [hdeps], fun _ => by rw [hdeps], by rw [ho2]; omega,
        by rw [ho2], by rw [ho2]; simp, by rw [ho2]⟩

theorem inv_destroyOwner_null {bal : Prop} {n : Nat} {st : MState} {i : Nat}
    (hInv : MInv bal n st) (hi : st.owners[i]? = some (HandleState.live none)) :
    MInv bal (n + 1) { st with owners := st.owners.set i HandleState.dead } := by
  have howners : ∀ b', ownersOn { st with owners := st.owners.set i HandleState.dead } b'
      = ownersOn st b' := by
    intro b'
    have h := countP_set_eq (fun h => decide (h = HandleState.live (some b')))
      st.owners i HandleState.dead _ hi
    simp only [ownersOn]
    simp only [decide_eq_true_eq] at h ⊢
    simp at h
    exact h
  constructor
  · intro i2 b h
    rcases set_lookup_cases h with ⟨-, hx, -⟩ | ⟨-, h⟩
    · exact absurd hx (by simp)
    · exact hInv.ownerRange i2 b h
  · intro j d b hj hb
    exact hInv.depRange j d b hj hb
  · intro b B hB
    exact (hInv.blockOk b B hB).transfer (by omega) (howners b) rfl

theorem inv_moveOwnerCtor {bal : Prop} {n : Nat} {st : MState} {i : Nat} {s : Option Nat}
    (hInv : MInv bal n st) (hi : st.owners[i]? = some (HandleState.live s)) :
    MInv bal (n + 1)
      { st with owners := (st.owners.set i (HandleState.live none)) ++ [HandleState.live s] } := by
  have howners : ∀ b', ownersOn { st with
        owners := (st.owners.set i (HandleState.live none)) ++ [HandleState.live s] } b'
      = ownersOn st b' := by
    intro b'
    have h := countP_set_eq (fun h => decide (h = HandleState.live (some b')))
      st.owners i (HandleState.live none) _ hi
    simp only [ownersOn, List.countP_append, countP_singleton]
    simp only [decide_eq_true_eq] at h ⊢
    simp at h ⊢
    omega
  constructor
  · intro i2 b h
    rcases append_singleton_lookup h with h | ⟨-, hx⟩
    · rcases set_lookup_cases h with ⟨-, hx, -⟩ | ⟨-, h⟩
      · exact absurd hx (by simp)
      · exact hInv.ownerRange i2 b h
    · have : s = some b := by simpa using hx.symm
      subst this
      exact hInv.ownerRange i b hi
  · intro j d b hj hb
    exact hInv.depRange j d b hj hb
  · intro b B hB
    exact (hInv.blockOk b B hB).transfer (by omega) (howners b) rfl

theorem inv_moveOwnerAssign {bal : Prop} {n : Nat} {st : MState} {i j : Nat}
    {si sj : Option Nat}
    (hInv : MInv bal n st) (hi : st.owners[i]? = some (HandleState.live si))
    (hj : st.owners[j]? = some (HandleState.live sj)) :
    MInv bal (n + 1)
      { st with owners :=
          (st.owners.set i (HandleState.live sj)).set j (HandleState.live si) } := by
  have hjlt : j < st.owners.length := by
    by_contra hc
    rw [List.getElem?_eq_none (by omega)] at hj
    exact Option.noConfusion hj
  have hj2 : (st.owners.set i (HandleState.live sj))[j]? = some (HandleState.live sj) := by
    rcases eq_or_ne i j with hij | hij
    · subst hij
      exact List.getElem?_set_self hjlt
    · rw [List.getElem?_set_ne hij]
      exact hj
  have howners : ∀ b', ownersOn { st with owners :=
        (st.owners.set i (HandleState.live sj)).set j (HandleState.live si) } b'
      = ownersOn st b' := by
    intro b'
    have h1 := countP_set_eq (fun h => decide (h = HandleState.live (some b')))
      st.owners i (HandleState.live sj) _ hi
    have h2 := countP_set_eq (fun h => decide (h = HandleState.live (some b')))
      (st.owners.set i (HandleState.live sj)) j (HandleState.live si) _ hj2
    simp only [ownersOn]
    omega
  constructor
  · intro i2 b h
    rcases set_lookup_cases h with ⟨-, hx, -⟩ | ⟨-, h⟩
    · have hsb : si = some b := by simpa using hx.symm
      subst hsb
      exact hInv.ownerRange i b hi
    · rcases set_lookup_cases h with ⟨-, hx, -⟩ | ⟨-, h⟩
      · have hsb : sj = some b := by simpa using hx.symm
        subst hsb
        exact hInv.ownerRange j b hj
      · exact hInv.ownerRange i2 b h
  · intro j2 d b hj2 hb
    exact hInv.depRange j2 d b hj2 hb
  · intro b B hB
    exact (hInv.blockOk b B hB).transfer (by omega) (howners b) rfl

/-! ## Word arithmetic of the packed reference count -/

theorem incRef_ref_count {B : Block} {own u : Nat} (hB : B.ref_count = own * owner_marker + u)
    (ho : own ≤ 1) (hu : u + 1 < owner_marker) :
    (incRef B).ref_count = own * owner_marker + (u + 1) := by
  rcases Nat.le_one_iff_eq_zero_or_eq_one.mp ho with h | h <;> subst h <;>
    simp only [incRef, owner_marker_eq, wordMod_eq, Nat.zero_mul, Nat.one_mul] at hB hu ⊢ <;>
    omega

theorem decRef_ref_count {B : Block} {own u : Nat} (hB : B.ref_count = own * owner_marker + u)
    (ho : own ≤ 1) (hu1 : 1 ≤ u) (hu2 : u < owner_marker) :
    (decRef B).ref_count = own * owner_marker + (u - 1) := by
  rcases Nat.le_one_iff_eq_zero_or_eq_one.mp ho with h | h <;> subst h <;>
    simp only [decRef, owner_marker_eq, wordMod_eq, Nat.zero_mul, Nat.one_mul] at hB hu2 ⊢ <;>
    omega

theorem clearOwnerBit_ref_count {B : Block} {own u : Nat}
    (hB : B.ref_count = own * owner_marker + u) (ho : own ≤ 1) (hu : u < owner_marker) :
    (clearOwnerBit B).ref_count = u := by
  rw [clearOwnerBit]
  simp only [land_mask_eq_mod, hB]
  rcases Nat.le_one_iff_eq_zero_or_eq_one.mp ho with h | h <;> subst h <;>
    simp only [owner_marker_eq, Nat.zero_mul, Nat.one_mul] at hu ⊢ <;> omega

/-- `has_owner` reads exactly the owner bit of a well-formed count word. -/
theorem has_owner_eq {B : Block} {own u : Nat} (hB : B.ref_count = own * owner_marker + u)
    (ho : own ≤ 1) (hu : u < owner_marker) :
    B.has_owner = decide (own = 1) := by
  rw [Block.has_owner]
  rcases Nat.le_one_iff_eq_zero_or_eq_one.mp ho with h | h <;> subst h <;>
    simp only [hB, owner_marker_eq, Nat.zero_mul, Nat.one_mul] at hu ⊢ <;>
    simp <;> omega

/-- A block whose dependent count can only have dropped keeps its `BlockOk`
when the exact-accounting side condition is impossible. -/
theorem BlockOk.transfer_le {bal : Prop} {n nn : Nat} {st st2 : MState} {b : Nat} {B : Block}
    (hOk : BlockOk bal n st b B) (hn : n ≤ nn) (hbal : bal → False)
    (ho : ownersOn st2 b = ownersOn st b) (hd : depsOn st2 b ≤ depsOn st b) :
    BlockOk bal nn st2 b B := by
  refine ⟨hOk.frees_le, ?_, ?_⟩
  · intro hf
    rcases hOk.alloc hf with ⟨u, hu1, hu2, hu3, hu4, hu5, hu6, hu7⟩
    exact ⟨u, by omega, by omega, fun hb => absurd hb hbal,
      by rw [ho]; exact hu4, by rw [ho]; exact hu5, by rw [ho]; exact hu6,
      by rw [ho]; exact hu7⟩
  · intro hf
    have h := hOk.freed hf
    exact ⟨by rw [ho]; exact h.1, by omega, h.2.2⟩

theorem inv_incDep {bal : Prop} {n : Nat} {st : MState} {b : Nat} {B : Block} {c : Bool}
    (hInv : MInv bal n st) (hn : n + 1 < owner_marker)
    (hB : st.blocks[b]? = some B)
    (hbound : 0 < ownersOn st b + depsOn st b) :
    MInv bal (n + 1)
      { st with blocks := st.blocks.set b (incRef B),
                deps := st.deps ++ [⟨c, HandleState.live (some b)⟩] } := by
  have hbl : b < st.blocks.length := by
    by_contra hc
    rw [List.getElem?_eq_none (by omega)] at hB
    exact Option.noConfusion hB
  have hf0 : B.frees = 0 := frees_eq_zero_of_bound hInv hB hbound
  have hdeps : ∀ b', depsOn { st with
        blocks := st.blocks.set b (incRef B),
        deps := st.deps ++ [⟨c, HandleState.live (some b)⟩] } b'
      = depsOn st b' + (if b = b' then 1 else 0) := by
    intro b'
    simp only [depsOn, List.countP_append, countP_singleton]
    congr 1
    simp
  have howners : ∀ b', ownersOn { st with
        blocks := st.blocks.set b (incRef B),
        deps := st.deps ++ [⟨c, HandleState.live (some b)⟩] } b' = ownersOn st b' :=
    fun _ => rfl
  constructor
  · intro i2 b2 h
    simp only [List.length_set]
    exact hInv.ownerRange i2 b2 h
  · intro j d b2 hj hb2
    simp only [List.length_set]
    rcases append_singleton_lookup hj with hj | ⟨-, hx⟩
    · exact hInv.depRange j d b2 hj hb2
    · subst hx
      have hb2b : b = b2 := by simpa using hb2
      omega
  · intro b' B' hB'
    rcases set_lookup_cases hB' with ⟨hbb, hBv, -⟩ | ⟨hne, hB'⟩
    · subst hbb
      subst hBv
      have hOk := hInv.blockOk b B hB
      rcases hOk.alloc hf0 with ⟨u, hu1, hu2, hu3, hu4, hu5, hu6, hu7⟩
      refine ⟨?_, fun _ => ?_, fun hf => ?_⟩
      · exact hOk.frees_le
      · exact ⟨u + 1, by omega, by rw [hdeps, if_pos rfl]; omega,
          fun hb => by rw [hdeps, if_pos rfl, ← hu3 hb],
          by rw [howners]; omega, by rw [howners]; exact hu5,
          by rw [howners]; exact incRef_ref_count hu6 hu5 (by omega),
          by rw [howners]; exact hu7⟩
      · exact absurd hf (by simp [incRef, hf0])
    · exact (hInv.blockOk b' B' hB').transfer (by omega) (howners b')
        (by rw [hdeps, if_neg hne]; omega)

theorem inv_destroyDep_null {bal : Prop} {n : Nat} {st : MState} {j : Nat} {c : Bool}
    (hInv : MInv bal n st) (hj : st.deps[j]? = some ⟨c, HandleState.live none⟩) :
    MInv bal (n + 1) { st with deps := st.deps.set j ⟨c, HandleState.dead⟩ } := by
  have hdeps : ∀ b', depsOn { st with deps := st.deps.set j ⟨c, HandleState.dead⟩ } b'
      = depsOn st b' := by
    intro b'
    have h := countP_set_eq (fun d => decide (d.hs = HandleState.live (some b')))
      st.deps j ⟨c, HandleState.dead⟩ _ hj
    simp only [depsOn]
    simp at h
    exact h
  constructor
  · intro i2 b2 h
    exact hInv.ownerRange i2 b2 h
  · intro j2 d b2 hj2 hb2
    rcases set_lookup_cases hj2 with ⟨-, hx, -⟩ | ⟨-, hj2⟩
    · subst hx
      exact absurd hb2 (by simp)
    · exact hInv.depRange j2 d b2 hj2 hb2
  · intro b B hB
    exact (hInv.blockOk b B hB).transfer (by omega) rfl (hdeps b)

theorem inv_moveDepCtor_safe {bal : Prop} {n : Nat} {st : MState} {j : Nat} {c : Bool}
    {s : Option Nat}
    (hInv : MInv bal n st) (hj : st.deps[j]? = some ⟨c, HandleState.live s⟩) :
    MInv bal (n + 1)
      { st with deps :=
          (st.deps.set j ⟨c, HandleState.live none⟩) ++ [⟨c, HandleState.live s⟩] } := by
  have hdeps : ∀ b', depsOn { st with deps :=
        (st.deps.set j ⟨c, HandleState.live none⟩) ++ [⟨c, HandleState.live s⟩] } b'
      = depsOn st b' := by
    intro b'
    have h := countP_set_eq (fun d => decide (d.hs = HandleState.live (some b')))
      st.deps j ⟨c, HandleState.live none⟩ _ hj
    simp only [depsOn, List.countP_append, countP_singleton]
    simp at h ⊢
    omega
  constructor
  · intro i2 b2 h
    exact hInv.ownerRange i2 b2 h
  · intro j2 d b2 hj2 hb2
    rcases append_singleton_lookup hj2 with hj2 | ⟨-, hx⟩
    · rcases set_lookup_cases hj2 with ⟨-, hx, -⟩ | ⟨-, hj2⟩
      · subst hx
        exact absurd hb2 (by simp)
      · exact hInv.depRange j2 d b2 hj2 hb2
    · subst hx
      exact hInv.depRange j _ b2 hj hb2
  · intro b B hB
    exact (hInv.blockOk b B hB).transfer (by omega) rfl (hdeps b)

theorem packed_pos {own u : Nat} (h : own * owner_marker + u ≠ 0) : 0 < own + u := by
  rcases Nat.eq_zero_or_pos own with h0 | h0
  · subst h0
    simp only [Nat.zero_mul, Nat.zero_add] at h
    omega
  · omega

theorem packed_eq_zero {own u : Nat} (ho : own ≤ 1) (h : own * owner_marker + u = 0) :
    own = 0 ∧ u = 0 := by
  rcases Nat.le_one_iff_eq_zero_or_eq_one.mp ho with h1 | h1 <;> subst h1 <;>
    simp only [owner_marker_eq, Nat.zero_mul, Nat.one_mul] at h <;> omega

/-- Releasing one dependent-count unit (the common destructor tail), for a
block that currently has a unit to lose: either the word does not reach
zero and only the count drops, or it reaches zero and the block is freed. -/
theorem BlockOk.release {bal : Prop} {n nn : Nat} {st st2 : MState} {b : Nat} {B : Block}
    (hOk : BlockOk bal n st b B) (hn : n ≤ nn) (hf0 : B.frees = 0)
    (hdpos : 0 < depsOn st b) (hnm : n < owner_marker)
    (ho : ownersOn st2 b = ownersOn st b)
    (hd : depsOn st2 b + 1 = depsOn st b) :
    BlockOk bal nn st2 b (depRelease B) := by
  rcases hOk.alloc hf0 with ⟨u, hu1, hu2, hu3, hu4, hu5, hu6, hu7⟩
  have hu1b : 1 ≤ u := by omega
  have hdec := decRef_ref_count hu6 hu5 hu1b (by omega)
  by_cases hz : (decRef B).ref_count = 0
  · have hrel : depRelease B = freeBlock (decRef B) := by
      simp only [depRelease]
      rw [if_pos hz]
    rw [hdec] at hz
    obtain ⟨hz0, hz1⟩ := packed_eq_zero hu5 hz
    rw [hrel]
    refine ⟨?_, ?_, ?_⟩
    · rw [freeBlock_frees, decRef_frees, hf0]
    · intro hf
      rw [freeBlock_frees, decRef_frees, hf0] at hf
      exact absurd hf (by omega)
    · intro _
      refine ⟨by omega, by omega, ?_⟩
      rw [freeBlock_valueDestroys, decRef_valueDestroys, hu7, hz0]
  · have hrel : depRelease B = decRef B := by
      simp only [depRelease]
      rw [if_neg hz]
    rw [hdec] at hz
    have hpos := packed_pos hz
    rw [hrel]
    refine ⟨?_, ?_, ?_⟩
    · rw [decRef_frees]
      omega
    · intro _
      exact ⟨u - 1, by omega, by omega, fun hb => by have := hu3 hb; omega,
        by omega, by rw [ho]; exact hu5, by rw [ho]; exact hdec,
        by rw [ho, decRef_valueDestroys]; exact hu7⟩
    · intro hf
      rw [decRef_frees, hf0] at hf
      exact absurd hf (by omega)

theorem inv_destroyDep {bal : Prop} {n : Nat} {st : MState} {j b : Nat} {c : Bool} {B : Block}
    (hInv : MInv bal n st) (hn : n < owner_marker)
    (hj : st.deps[j]? = some ⟨c, HandleState.live (some b)⟩)
    (hB : st.blocks[b]? = some B) :
    MInv bal (n + 1)
      { st with blocks := st.blocks.set b (depRelease B),
                deps := st.deps.set j ⟨c, HandleState.dead⟩ } := by
  have hdpos : 0 < depsOn st b := depsOn_pos hj rfl
  have hf0 : B.frees = 0 := frees_eq_zero_of_bound hInv hB (by omega)
  have hdeps : ∀ b', depsOn { st with
        blocks := st.blocks.set b (depRelease B),
        deps := st.deps.set j ⟨c, HandleState.dead⟩ } b'
      + (if b = b' then 1 else 0) = depsOn st b' := by
    intro b'
    have h := countP_set_eq (fun d => decide (d.hs = HandleState.live (some b')))
      st.deps j ⟨c, HandleState.dead⟩ _ hj
    simp only [depsOn]
    rcases eq_or_ne b b' with hbb | hbb
    · subst hbb
      simp at h ⊢
      omega
    · simp [hbb] at h ⊢
      omega
  constructor
  · intro i2 b2 h
    simp only [List.length_set]
    exact hInv.ownerRange i2 b2 h
  · intro j2 d b2 hj2 hb2
    simp only [List.length_set]
    rcases set_lookup_cases hj2 with ⟨-, hx, -⟩ | ⟨-, hj2⟩
    · subst hx
      exact absurd hb2 (by simp)
    · exact hInv.depRange j2 d b2 hj2 hb2
  · intro b' B' hB'
    rcases set_lookup_cases hB' with ⟨hbb, hBv, -⟩ | ⟨hne, hB'⟩
    · rw [← hbb] at hB' ⊢
      rw [hBv] at hB' ⊢
      refine (hInv.blockOk b B hB).release (by omega) hf0 hdpos hn (ownersOn_mk b) ?_
      have h := hdeps b
      rw [if_pos rfl] at h
      omega
    · refine (hInv.blockOk b' B' hB').transfer (by omega) (ownersOn_mk b') ?_
      have h := hdeps b'
      rw [if_neg hne] at h
      omega

theorem inv_moveDepAssign_safe {bal : Prop} {n : Nat} {st : MState} {j k : Nat}
    {cj ck : Bool} {sj sk : Option Nat}
    (hInv : MInv bal n st)
    (hj : st.deps[j]? = some ⟨cj, HandleState.live sj⟩)
    (hk : st.deps[k]? = some ⟨ck, HandleState.live sk⟩) :
    MInv bal (n + 1)
      { st with deps :=
          (st.deps.set j ⟨cj, HandleState.live sk⟩).set k ⟨ck, HandleState.live sj⟩ } := by
  have hklt : k < st.deps.length := by
    by_contra hc
    rw [List.getElem?_eq_none (by omega)] at hk
    exact Option.noConfusion hk
  have hk2 : (st.deps.set j ⟨cj, HandleState.live sk⟩)[k]? = some ⟨ck, HandleState.live sk⟩ := by
    rcases eq_or_ne j k with hjk | hjk
    · subst hjk
      rw [hj] at hk
      have hcc : cj = ck := by
        have := (Option.some.injEq _ _).mp hk
        exact congrArg DepHandle.isConst this
      rw [← hcc]
      exact List.getElem?_set_self hklt
    · rw [List.getElem?_set_ne hjk]
      exact hk
  have hdeps : ∀ b', depsOn { st with deps :=
        (st.deps.set j ⟨cj, HandleState.live sk⟩).set k ⟨ck, HandleState.live sj⟩ } b'
      = depsOn st b' := by
    intro b'
    have h1 := countP_set_eq (fun d => decide (d.hs = HandleState.live (some b')))
      st.deps j ⟨cj, HandleState.live sk⟩ _ hj
    have h2 := countP_set_eq (fun d => decide (d.hs = HandleState.live (some b')))
      (st.deps.set j ⟨cj, HandleState.live sk⟩) k ⟨ck, HandleState.live sj⟩ _ hk2
    simp only [depsOn]
    simp only [decide_eq_true_eq] at h1 h2 ⊢
    simp at h1 h2 ⊢
    omega
  constructor
  · intro i2 b2 h
    exact hInv.ownerRange i2 b2 h
  · intro j2 d b2 hj2 hb2
    rcases set_lookup_cases hj2 with ⟨-, hx, -⟩ | ⟨-, hj2⟩
    · subst hx
      simp only at hb2
      rw [hb2] at hj
      exact hInv.depRange j _ b2 hj rfl
    · rcases set_lookup_cases hj2 with ⟨-, hx, -⟩ | ⟨-, hj2⟩
      · subst hx
        simp only at hb2
        rw [hb2] at hk
        exact hInv.depRange k _ b2 hk rfl
      · exact hInv.depRange j2 d b2 hj2 hb2
  · intro b B hB
    exact (hInv.blockOk b B hB).transfer (by omega) rfl (hdeps b)

theorem inv_moveDepAssign_fast {bal : Prop} {n : Nat} {st : MState} {j k b : Nat}
    {cj ck : Bool} {sj : Option Nat} {B : Block}
    (hInv : MInv bal n st) (hn : n + 1 < owner_marker) (hbal : bal → False)
    (hj : st.deps[j]? = some ⟨cj, HandleState.live sj⟩)
    (hk : st.deps[k]? = some ⟨ck, HandleState.live (some b)⟩)
    (hB : st.blocks[b]? = some B) :
    MInv bal (n + 1)
      { st with blocks := st.blocks.set b (incRef B),
                deps := st.deps.set j ⟨cj, HandleState.live (some b)⟩ } := by
  have hbl : b < st.blocks.length := by
    by_contra hc
    rw [List.getElem?_eq_none (by omega)] at hB
    exact Option.noConfusion hB
  have hdpos : 0 < depsOn st b := depsOn_pos hk rfl
  have hf0 : B.frees = 0 := frees_eq_zero_of_bound hInv hB (by omega)
  have hdeps : ∀ b', depsOn { st with
                  blocks := st.blocks.set b (incRef B),
                  deps := st.deps.set j ⟨cj, HandleState.live (some b)⟩ } b'
      + (if sj = some b' then 1 else 0)
      = depsOn st b' + (if b = b' then 1 else 0) := by
    intro b'
    have h := countP_set_eq (fun d => decide (d.hs = HandleState.live (some b')))
      st.deps j ⟨cj, HandleState.live (some b)⟩ _ hj
    simp only [depsOn]
    simp only [decide_eq_true_eq] at h ⊢
    simp at h ⊢
    omega
  constructor
  · intro i2 b2 h
    simp only [List.length_set]
    exact hInv.ownerRange i2 b2 h
  · intro j2 d b2 hj2 hb2
    simp only [List.length_set]
    rcases set_lookup_cases hj2 with ⟨-, hx, -⟩ | ⟨-, hj2⟩
    · subst hx
      simp only at hb2
      have hbb : b = b2 := by simpa using hb2
      omega
    · exact hInv.depRange j2 d b2 hj2 hb2
  · intro b' B' hB'
    rcases set_lookup_cases hB' with ⟨hbb, hBv, -⟩ | ⟨hne, hB'⟩
    · rw [← hbb] at hB' ⊢
      rw [hBv] at hB' ⊢
      have hOk := hInv.blockOk b B hB
      rcases hOk.alloc hf0 with ⟨u, hu1, hu2, hu3, hu4, hu5, hu6, hu7⟩
      have hd := hdeps b
      rw [if_pos rfl] at hd
      refine ⟨hOk.frees_le, fun _ => ?_, fun hf => ?_⟩
      · exact ⟨u + 1, by omega, by omega, fun hb2 => absurd hb2 hbal,
          by omega, hu5, incRef_ref_count hu6 hu5 (by omega), hu7⟩
      · exact absurd hf (by simp [hf0])
    · have hd := hdeps b'
      rw [if_neg hne] at hd
      exact (hInv.blockOk b' B' hB').transfer_le (by omega) hbal rfl (by omega)

theorem Block.ext_fields {A C : Block} (h1 : A.ref_count = C.ref_count)
    (h2 : A.valueDestroys = C.valueDestroys) (h3 : A.frees = C.frees)
    (h4 : A.value = C.value) : A = C := by
  cases A
  cases C
  simp_all

/-- Incrementing and then releasing one unit is the identity on a block
whose word is in range and nonzero (the copy-assignment temporary dance on
a single block). -/
theorem depRelease_incRef_eq {B : Block} {own u : Nat}
    (hB : B.ref_count = own * owner_marker + u) (ho : own ≤ 1) (hpos : 0 < own + u)
    (hu : u + 1 < owner_marker) : depRelease (incRef B) = B := by
  have hinc : (incRef B).ref_count = own * owner_marker + (u + 1) := incRef_ref_count hB ho hu
  have hdec : (decRef (incRef B)).ref_count = own * owner_marker + (u + 1 - 1) :=
    decRef_ref_count hinc ho (by omega) (by omega)
  have hz : ¬((decRef (incRef B)).ref_count = 0) := by
    rw [hdec]
    intro h
    have := packed_eq_zero ho h
    omega
  have hrel : depRelease (incRef B) = decRef (incRef B) := by
    simp only [depRelease]
    rw [if_neg hz]
  rw [hrel]
  refine Block.ext_fields ?_ (by simp) (by simp) (by simp)
  rw [hdec, hB]
  omega

theorem inv_copyDepAssign_none {bal : Prop} {n : Nat} {st : MState} {j k b : Nat}
    {cj ck : Bool} {B : Block}
    (hInv : MInv bal n st) (hn : n + 1 < owner_marker)
    (hj : st.deps[j]? = some ⟨cj, HandleState.live none⟩)
    (hk : st.deps[k]? = some ⟨ck, HandleState.live (some b)⟩)
    (hB : st.blocks[b]? = some B) :
    MInv bal (n + 1)
      { st with blocks := st.blocks.set b (incRef B),
                deps := st.deps.set j ⟨cj, HandleState.live (some b)⟩ } := by
  have hbl : b < st.blocks.length := by
    by_contra hc
    rw [List.getElem?_eq_none (by omega)] at hB
    exact Option.noConfusion hB
  have hdpos : 0 < depsOn st b := depsOn_pos hk rfl
  have hf0 : B.frees = 0 := frees_eq_zero_of_bound hInv hB (by omega)
  have hdeps : ∀ b', depsOn { st with
                  blocks := st.blocks.set b (incRef B),
                  deps := st.deps.set j ⟨cj, HandleState.live (some b)⟩ } b'
      = depsOn st b' + (if b = b' then 1 else 0) := by
    intro b'
    have h := countP_set_eq (fun d => decide (d.hs = HandleState.live (some b')))
      st.deps j ⟨cj, HandleState.live (some b)⟩ _ hj
    simp only [depsOn]
    simp only [decide_eq_true_eq] at h ⊢
    simp at h ⊢
    omega
  constructor
  · intro i2 b2 h
    simp only [List.length_set]
    exact hInv.ownerRange i2 b2 h
  · intro j2 d b2 hj2 hb2
    simp only [List.length_set]
    rcases set_lookup_cases hj2 with ⟨-, hx, -⟩ | ⟨-, hj2⟩
    · subst hx
      simp only at hb2
      have hbb : b = b2 := by simpa using hb2
      omega
    · exact hInv.depRange j2 d b2 hj2 hb2
  · intro b' B' hB'
    rcases set_lookup_cases hB' with ⟨hbb, hBv, -⟩ | ⟨hne, hB'⟩
    · rw [← hbb] at hB' ⊢
      rw [hBv] at hB' ⊢
      have hOk := hInv.blockOk b B hB
      rcases hOk.alloc hf0 with ⟨u, hu1, hu2, hu3, hu4, hu5, hu6, hu7⟩
      have hd := hdeps b
      rw [if_pos rfl] at hd
      refine ⟨hOk.frees_le, fun _ => ?_, fun hf => ?_⟩
      · exact ⟨u + 1, by omega, by omega, fun hb2 => by have := hu3 hb2; omega,
          by omega, hu5, incRef_ref_count hu6 hu5 (by omega), hu7⟩
      · exact absurd hf (by simp [hf0])
    · have hd := hdeps b'
      rw [if_neg hne] at hd
      exact (hInv.blockOk b' B' hB').transfer (by omega) rfl (by omega)

theorem inv_destroyOwner {bal : Prop} {n : Nat} {st : MState} {i b : Nat} {B : Block}
    (hInv : MInv bal n st) (hn : n < owner_marker)
    (hoi : st.owners[i]? = some (HandleState.live (some b)))
    (hB : st.blocks[b]? = some B) :
    MInv bal (n + 1)
      { st with
          blocks := st.blocks.set b
            (if (runDeleter (clearOwnerBit B)).ref_count = 0
              then freeBlock (runDeleter (clearOwnerBit B))
              else runDeleter (clearOwnerBit B)),
          owners := st.owners.set i HandleState.dead } := by
  have hopos : 0 < ownersOn st b := ownersOn_pos hoi
  have hf0 : B.frees = 0 := frees_eq_zero_of_bound hInv hB (by omega)
  have hOk := hInv.blockOk b B hB
  rcases hOk.alloc hf0 with ⟨u, hu1, hu2, hu3, hu4, hu5, hu6, hu7⟩
  have hown1 : ownersOn st b = 1 := by omega
  have hclear : (clearOwnerBit B).ref_count = u :=
    clearOwnerBit_ref_count hu6 hu5 (by omega)
  have howners : ∀ b', ownersOn { st with
                  blocks := st.blocks.set b
                    (if (runDeleter (clearOwnerBit B)).ref_count = 0
                      then freeBlock (runDeleter (clearOwnerBit B))
                      else runDeleter (clearOwnerBit B)),
                  owners := st.owners.set i HandleState.dead } b'
      + (if b = b' then 1 else 0) = ownersOn st b' := by
    intro b'
    have h := countP_set_eq (fun h => decide (h = HandleState.live (some b')))
      st.owners i HandleState.dead _ hoi
    simp only [ownersOn]
    rcases eq_or_ne b b' with hbb | hbb
    · subst hbb
      simp at h ⊢
      omega
    · simp [hbb] at h ⊢
      omega
  constructor
  · intro i2 b2 h
    simp only [List.length_set]
    rcases set_lookup_cases h with ⟨-, hx, -⟩ | ⟨-, h⟩
    · exact absurd hx (by simp)
    · exact hInv.ownerRange i2 b2 h
  · intro j2 d b2 hj2 hb2
    simp only [List.length_set]
    exact hInv.depRange j2 d b2 hj2 hb2
  · intro b' B' hB'
    rcases set_lookup_cases hB' with ⟨hbb, hBv, -⟩ | ⟨hne, hB'⟩
    · rw [← hbb] at hB' ⊢
      have ho2 : ownersOn { st with
                  blocks := st.blocks.set b
                    (if (runDeleter (clearOwnerBit B)).ref_count = 0
                      then freeBlock (runDeleter (clearOwnerBit B))
                      else runDeleter (clearOwnerBit B)),
                  owners := st.owners.set i HandleState.dead } b = 0 := by
        have h := howners b
        rw [if_pos rfl] at h
        omega
      have hrc1 : (runDeleter (clearOwnerBit B)).ref_count = u := by
        rw [runDeleter_ref_count]
        exact hclear
      by_cases hz : (runDeleter (clearOwnerBit B)).ref_count = 0
      · rw [if_pos hz] at hBv
        rw [hrc1] at hz
        refine ⟨?_, ?_, ?_⟩
        · rw [hBv, freeBlock_frees, runDeleter_frees, clearOwnerBit_frees, hf0]
        · intro hf
          rw [hBv, freeBlock_frees, runDeleter_frees, clearOwnerBit_frees, hf0] at hf
          exact absurd hf (by omega)
        · intro _
          refine ⟨ho2, by rw [depsOn_with b]; omega, ?_⟩
          rw [hBv, freeBlock_valueDestroys, runDeleter_valueDestroys,
            clearOwnerBit_valueDestroys]
          omega
      · rw [if_neg hz] at hBv
        rw [hrc1] at hz
        refine ⟨?_, ?_, ?_⟩
        · rw [hBv, runDeleter_frees, clearOwnerBit_frees, hf0]
          omega
        · intro _
          refine ⟨u, by omega, by rw [depsOn_with b]; omega, fun hb2 => ?_,
            by rw [ho2]; omega, by rw [ho2]; omega, ?_, ?_⟩
          · rw [depsOn_with b]
            have := hu3 hb2
            omega
          · rw [ho2, hBv, hrc1]
            omega
          · rw [ho2, hBv, runDeleter_valueDestroys, clearOwnerBit_valueDestroys]
            omega
        · intro hf
          rw [hBv, runDeleter_frees, clearOwnerBit_frees, hf0] at hf
          exact absurd hf (by omega)
    · refine (hInv.blockOk b' B' hB').transfer (by omega) ?_ (depsOn_with b')
      have h := howners b'
      rw [if_neg hne] at h
      omega

theorem inv_copyDepAssign_some {bal : Prop} {n : Nat} {st : MState} {j k b a : Nat}
    {cj ck : Bool} {B Ba : Block}
    (hInv : MInv bal n st) (hn : n + 1 < owner_marker)
    (hj : st.deps[j]? = some ⟨cj, HandleState.live (some a)⟩)
    (hk : st.deps[k]? = some ⟨ck, HandleState.live (some b)⟩)
    (hB : st.blocks[b]? = some B)
    (hBa : (st.blocks.set b (incRef B))[a]? = some Ba) :
    MInv bal (n + 1)
      { st with blocks := (st.blocks.set b (incRef B)).set a (depRelease Ba),
                deps := st.deps.set j ⟨cj, HandleState.live (some b)⟩ } := by
  have hbl : b < st.blocks.length := by
    by_contra hc
    rw [List.getElem?_eq_none (by omega)] at hB
    exact Option.noConfusion hB
  have hdposb : 0 < depsOn st b := depsOn_pos hk rfl
  have hdposa : 0 < depsOn st a := depsOn_pos hj rfl
  have hf0 : B.frees = 0 := frees_eq_zero_of_bound hInv hB (by omega)
  have hdeps : ∀ b', depsOn { st with
                  blocks := (st.blocks.set b (incRef B)).set a (depRelease Ba),
                  deps := st.deps.set j ⟨cj, HandleState.live (some b)⟩ } b'
      + (if a = b' then 1 else 0) = depsOn st b' + (if b = b' then 1 else 0) := by
    intro b'
    have h := countP_set_eq (fun d => decide (d.hs = HandleState.live (some b')))
      st.deps j ⟨cj, HandleState.live (some b)⟩ _ hj
    simp only [depsOn]
    simp only [decide_eq_true_eq] at h ⊢
    simp at h ⊢
    omega
  have hOkb := hInv.blockOk b B hB
  rcases hOkb.alloc hf0 with ⟨u, hu1, hu2, hu3, hu4, hu5, hu6, hu7⟩
  have hranges : (∀ (i2 b2 : Nat),
        ({ st with
            blocks := (st.blocks.set b (incRef B)).set a (depRelease Ba),
            deps := st.deps.set j ⟨cj, HandleState.live (some b)⟩ } : MState).owners[i2]?
          = some (HandleState.live (some b2)) →
        b2 < ((st.blocks.set b (incRef B)).set a (depRelease Ba)).length) ∧
      (∀ (j2 : Nat) (d : DepHandle) (b2 : Nat),
        (st.deps.set j ⟨cj, HandleState.live (some b)⟩)[j2]? = some d →
        d.hs = HandleState.live (some b2) →
        b2 < ((st.blocks.set b (incRef B)).set a (depRelease Ba)).length) := by
    constructor
    · intro i2 b2 h
      simp only [List.length_set]
      exact hInv.ownerRange i2 b2 h
    · intro j2 d b2 hj2 hb2
      simp only [List.length_set]
      rcases set_lookup_cases hj2 with ⟨-, hx, -⟩ | ⟨-, hj2⟩
      · subst hx
        simp only at hb2
        have hbb : b = b2 := by simpa using hb2
        omega
      · exact hInv.depRange j2 d b2 hj2 hb2
  rcases eq_or_ne a b with hab | hab
  · -- the released binding is on the same block: net effect is no change there
    rw [hab] at hBa hj hdposa hranges hdeps ⊢
    rw [List.getElem?_set_self hbl] at hBa
    have hBa2 : Ba = incRef B := ((Option.some.injEq _ _).mp hBa).symm
    have hrel : depRelease Ba = B := by
      rw [hBa2]
      exact depRelease_incRef_eq hu6 hu5 hu4 (by omega)
    rw [hrel] at hranges hdeps ⊢
    constructor
    · exact hranges.1
    · exact hranges.2
    · intro b' B' hB'
      rcases set_lookup_cases hB' with ⟨hbb, hBv, -⟩ | ⟨hne, hB'⟩
      · rw [← hbb] at hB' ⊢
        rw [hBv] at hB' ⊢
        refine (hInv.blockOk b B hB).transfer (by omega) (ownersOn_mk b) ?_
        have h := hdeps b
        rw [if_pos rfl] at h
        omega
      · rcases set_lookup_cases hB' with ⟨hbb2, hBv2, -⟩ | ⟨hne2, hB'⟩
        · rw [← hbb2] at hB' hne ⊢
          rw [hBv2] at hB' ⊢
          exact absurd rfl hne
        · refine (hInv.blockOk b' B' hB').transfer (by omega) (ownersOn_mk b') ?_
          have h := hdeps b'
          rw [if_neg hne] at h
          omega
  · -- distinct blocks: the target block gains a unit, the old binding's
    -- block releases one
    rw [List.getElem?_set_ne (by omega)] at hBa
    have hal : a < st.blocks.length := by
      by_contra hc
      rw [List.getElem?_eq_none (by omega)] at hBa
      exact Option.noConfusion hBa
    have hf0a : Ba.frees = 0 := frees_eq_zero_of_bound hInv hBa (by omega)
    constructor
    · exact hranges.1
    · exact hranges.2
    · intro b' B' hB'
      rcases set_lookup_cases hB' with ⟨hbb, hBv, -⟩ | ⟨hne, hB'⟩
      · rw [← hbb] at hB' ⊢
        rw [hBv] at hB' ⊢
        refine (hInv.blockOk a Ba hBa).release (by omega) hf0a hdposa (by omega)
          (ownersOn_mk a) ?_
        have h := hdeps a
        rw [if_pos rfl, if_neg (by omega)] at h
        omega
      · rcases set_lookup_cases hB' with ⟨hbb2, hBv2, -⟩ | ⟨hne2, hB'⟩
        · rw [← hbb2] at hB' hne ⊢
          rw [hBv2] at hB' ⊢
          have h := hdeps b
          rw [if_neg (by omega), if_pos rfl] at h
          refine ⟨hOkb.frees_le, fun _ => ?_, fun hf => ?_⟩
          · exact ⟨u + 1, by omega, by omega, fun hb2 => by have := hu3 hb2; omega,
              by omega, hu5, incRef_ref_count hu6 hu5 (by omega), hu7⟩
          · exact absurd hf (by simp [hf0])
        · refine (hInv.blockOk b' B' hB').transfer (by omega) (ownersOn_mk b') ?_
          have h := hdeps b'
          rw [if_neg hne2, if_neg hne] at h
          omega

theorem MInv.mono {bal : Prop} {n m : Nat} {st : MState} (hInv : MInv bal n st) (h : n ≤ m) :
    MInv bal m st :=
  ⟨hInv.ownerRange, hInv.depRange, fun b B hB => (hInv.blockOk b B hB).transfer h rfl rfl⟩

/-- One machine step preserves the invariant, spending one unit of budget.
The `hbal` side condition ties the exact-accounting flag to the executed
operation: exact accounting survives everything except a fast-discipline
dependent move-assignment. -/
theorem step_inv {rwmf : Bool} {bal : Prop} {n : Nat} {st st2 : MState} {op : Op}
    (hst : step rwmf st op = some st2) (hInv : MInv bal n st)
    (hn : n + 1 < owner_marker)
    (hbal : bal → rwmf = true ∨ ∀ j k, op ≠ Op.moveDepAssign j k) :
    MInv bal (n + 1) st2 := by
  cases op with
  | newOwner v =>
      simp only [step, Option.some.injEq] at hst
      exact hst ▸ inv_newOwner hInv v
  | destroyOwner i =>
      simp only [step] at hst
      cases hoi : st.owners[i]? with
      | none =>
          rw [hoi] at hst
          exact Option.noConfusion hst
      | some h =>
          rw [hoi] at hst
          cases h with
          | dead => exact Option.noConfusion hst
          | live s =>
              cases s with
              | none => exact (Option.some.inj hst) ▸ inv_destroyOwner_null hInv hoi
              | some b =>
                  dsimp only at hst
                  cases hBq : st.blocks[b]? with
                  | none =>
                      rw [hBq] at hst
                      exact Option.noConfusion hst
                  | some B =>
                      rw [hBq] at hst
                      exact (Option.some.inj hst) ▸ inv_destroyOwner hInv (by omega) hoi hBq
  | moveOwnerCtor i =>
      simp only [step] at hst
      cases hoi : st.owners[i]? with
      | none =>
          rw [hoi] at hst
          exact Option.noConfusion hst
      | some h =>
          rw [hoi] at hst
          cases h with
          | dead => exact Option.noConfusion hst
          | live s => exact (Option.some.inj hst) ▸ inv_moveOwnerCtor hInv hoi
  | moveOwnerAssign i j =>
      simp only [step] at hst
      cases hoi : st.owners[i]? with
      | none =>
          rw [hoi] at hst
          exact Option.noConfusion hst
      | some h =>
          rw [hoi] at hst
          cases h with
          | dead => exact Option.noConfusion hst
          | live si =>
              cases hoj : st.owners[j]? with
              | none =>
                  rw [hoj] at hst
                  exact Option.noConfusion hst
              | some h2 =>
                  rw [hoj] at hst
                  cases h2 with
                  | dead => exact Option.noConfusion hst
                  | live sj => exact (Option.some.inj hst) ▸ inv_moveOwnerAssign hInv hoi hoj
  | makeDep i c =>
      simp only [step] at hst
      cases hoi : st.owners[i]? with
      | none =>
          rw [hoi] at hst
          exact Option.noConfusion hst
      | some h =>
          rw [hoi] at hst
          cases h with
          | dead => exact Option.noConfusion hst
          | live s =>
              cases s with
              | none => exact Option.noConfusion hst
              | some b =>
                  dsimp only at hst
                  cases hBq : st.blocks[b]? with
                  | none =>
                      rw [hBq] at hst
                      exact Option.noConfusion hst
                  | some B =>
                      rw [hBq] at hst
                      refine (Option.some.inj hst) ▸ inv_incDep hInv hn hBq ?_
                      have := ownersOn_pos hoi
                      omega
  | copyDepCtor j =>
      simp only [step] at hst
      cases hdj : st.deps[j]? with
      | none =>
          rw [hdj] at hst
          exact Option.noConfusion hst
      | some d =>
          rw [hdj] at hst
          obtain ⟨c, hs⟩ := d
          cases hs with
          | dead => exact Option.noConfusion hst
          | live s =>
              cases s with
              | none => exact Option.noConfusion hst
              | some b =>
                  dsimp only at hst
                  cases hBq : st.blocks[b]? with
                  | none =>
                      rw [hBq] at hst
                      exact Option.noConfusion hst
                  | some B =>
                      rw [hBq] at hst
                      refine (Option.some.inj hst) ▸ inv_incDep hInv hn hBq ?_
                      have := depsOn_pos hdj rfl
                      omega
  | moveDepCtor j =>
      simp only [step] at hst
      cases hdj : st.deps[j]? with
      | none =>
          rw [hdj] at hst
          exact Option.noConfusion hst
      | some d =>
          rw [hdj] at hst
          obtain ⟨c, hs⟩ := d
          cases hs with
          | dead => exact Option.noConfusion hst
          | live s =>
              cases rwmf with
              | true => exact (Option.some.inj hst) ▸ inv_moveDepCtor_safe hInv hdj
              | false =>
                  cases s with
                  | none => exact Option.noConfusion hst
                  | some b =>
                      dsimp only at hst
                      cases hBq : st.blocks[b]? with
                      | none =>
                          rw [hBq] at hst
                          exact Option.noConfusion hst
                      | some B =>
                          rw [hBq] at hst
                          refine (Option.some.inj hst) ▸ inv_incDep hInv hn hBq ?_
                          have := depsOn_pos hdj rfl
                          omega
  | moveDepAssign j k =>
      simp only [step] at hst
      cases hdj : st.deps[j]? with
      | none =>
          rw [hdj] at hst
          exact Option.noConfusion hst
      | some d =>
          rw [hdj] at hst
          obtain ⟨cj, hsj⟩ := d
          cases hsj with
          | dead => exact Option.noConfusion hst
          | live sj =>
              cases hdk : st.deps[k]? with
              | none =>
                  rw [hdk] at hst
                  exact Option.noConfusion hst
              | some d2 =>
                  rw [hdk] at hst
                  obtain ⟨ck, hsk⟩ := d2
                  cases hsk with
                  | dead => exact Option.noConfusion hst
                  | live sk =>
                      dsimp only at hst
                      rcases eq_or_ne cj ck with hcc | hcc
                      · rw [if_pos hcc] at hst
                        cases rwmf with
                        | true => exact (Option.some.inj hst) ▸
                            inv_moveDepAssign_safe hInv hdj hdk
                        | false =>
                            have hbal2 : bal → False := by
                              intro hb
                              rcases hbal hb with h | h
                              · exact Bool.noConfusion h
                              · exact absurd rfl (h j k)
                            rw [if_neg Bool.false_ne_true] at hst
                            rcases eq_or_ne j k with hjk | hjk
                            · rw [if_pos hjk] at hst
                              exact (Option.some.inj hst) ▸ (hInv.mono (by omega))
                            · rw [if_neg hjk] at hst
                              cases sk with
                              | none => exact Option.noConfusion hst
                              | some b =>
                                  dsimp only at hst
                                  cases hBq : st.blocks[b]? with
                                  | none =>
                                      rw [hBq] at hst
                                      exact Option.noConfusion hst
                                  | some B =>
                                      rw [hBq] at hst
                                      exact (Option.some.inj hst) ▸
                                        inv_moveDepAssign_fast hInv hn hbal2 hdj hdk hBq
                      · rw [if_neg hcc] at hst
                        exact Option.noConfusion hst
  | copyDepAssign j k =>
      simp only [step] at hst
      cases hdj : st.deps[j]? with
      | none =>
          rw [hdj] at hst
          exact Option.noConfusion hst
      | some d =>
          rw [hdj] at hst
          obtain ⟨cj, hsj⟩ := d
          cases hsj with
          | dead => exact Option.noConfusion hst
          | live sj =>
              cases hdk : st.deps[k]? with
              | none =>
                  rw [hdk] at hst
                  exact Option.noConfusion hst
              | some d2 =>
                  rw [hdk] at hst
                  obtain ⟨ck, hsk⟩ := d2
                  cases hsk with
                  | dead => exact Option.noConfusion hst
                  | live sk =>
                      cases sk with
                      | none => exact Option.noConfusion hst
                      | some b =>
                          dsimp only at hst
                          rcases eq_or_ne cj ck with hcc | hcc
                          · rw [if_pos hcc] at hst
                            cases hBq : st.blocks[b]? with
                            | none =>
                                rw [hBq] at hst
                                exact Option.noConfusion hst
                            | some B =>
                                rw [hBq] at hst
                                dsimp only at hst
                                cases sj with
                                | none =>
                                    rw [← hcc] at hdk
                                    exact (Option.some.inj hst) ▸
                                      inv_copyDepAssign_none hInv hn hdj hdk hBq
                                | some a =>
                                    dsimp only at hst
                                    cases hBa : (st.blocks.set b (incRef B))[a]? with
                                    | none =>
                                        rw [hBa] at hst
                                        exact Option.noConfusion hst
                                    | some Ba =>
                                        rw [hBa] at hst
                                        rw [← hcc] at hdk
                                        exact (Option.some.inj hst) ▸
                                          inv_copyDepAssign_some hInv hn hdj hdk hBq hBa
                          · rw [if_neg hcc] at hst
                            exact Option.noConfusion hst
  | destroyDep j =>
      simp only [step] at hst
      cases hdj : st.deps[j]? with
      | none =>
          rw [hdj] at hst
          exact Option.noConfusion hst
      | some d =>
          rw [hdj] at hst
          obtain ⟨c, hs⟩ := d
          cases hs with
          | dead => exact Option.noConfusion hst
          | live s =>
              cases s with
              | none => exact (Option.some.inj hst) ▸ inv_destroyDep_null hInv hdj
              | some b =>
                  dsimp only at hst
                  cases hBq : st.blocks[b]? with
                  | none =>
                      rw [hBq] at hst
                      exact Option.noConfusion hst
                  | some B =>
                      rw [hBq] at hst
                      exact (Option.some.inj hst) ▸ inv_destroyDep hInv (by omega) hdj hBq

/-- Running a program preserves the invariant, spending one unit of budget
per executed operation. -/
theorem runFrom_inv {rwmf : Bool} {bal : Prop} :
    ∀ (tr : List Op) (k : Nat) (st st2 : MState),
      runFrom rwmf st tr = some st2 → MInv bal k st →
      k + tr.length < owner_marker →
      (bal → rwmf = true ∨ ∀ op ∈ tr, ∀ j k2, op ≠ Op.moveDepAssign j k2) →
      MInv bal (k + tr.length) st2
  | [], k, st, st2, hrun, hInv, _, _ => by
      simp only [runFrom, Option.some.injEq] at hrun
      simpa using hrun ▸ hInv
  | op :: tr, k, st, st2, hrun, hInv, hlen, hbal => by
      simp only [runFrom] at hrun
      cases hs : step rwmf st op with
      | none =>
          rw [hs] at hrun
          exact Option.noConfusion hrun
      | some stm =>
          rw [hs] at hrun
          have hlen2 : k + 1 + tr.length < owner_marker := by
            simp only [List.length_cons] at hlen
            omega
          have hInv2 : MInv bal (k + 1) stm :=
            step_inv hs hInv (by omega)
              (fun hb => (hbal hb).imp id (fun h => h op (List.mem_cons_self op tr)))
          have hrest := runFrom_inv tr (k + 1) stm st2 hrun hInv2 hlen2
            (fun hb => (hbal hb).imp id
              (fun h op2 hmem => h op2 (List.mem_cons_of_mem op hmem)))
          exact hrest.mono (by simp only [List.length_cons]; omega)

/-- The invariant holds in every reachable state of a program shorter than
`2 ^ 63` operations. -/
theorem reaches_inv {rwmf : Bool} {bal : Prop} {tr : List Op} {st : MState}
    (hrun : Reaches rwmf tr st) (hlen : tr.length < owner_marker)
    (hbal : bal → rwmf = true ∨ ∀ op ∈ tr, ∀ j k, op ≠ Op.moveDepAssign j k) :
    MInv bal tr.length st := by
  have h := runFrom_inv tr 0 initState st hrun (MInv.initial bal 0) (by omega) hbal
  simpa using h

/-- The plain (discipline-independent) form of the reachability invariant. -/
theorem reaches_inv_plain {rwmf : Bool} {tr : List Op} {st : MState}
    (hrun : Reaches rwmf tr st) (hlen : tr.length < owner_marker) :
    MInv False tr.length st :=
  reaches_inv hrun hlen (fun h => h.elim)

/-- The exact-accounting form: available in the safe discipline, or in any
run that never move-assigns a dependent. -/
theorem reaches_inv_bal {rwmf : Bool} {tr : List Op} {st : MState}
    (hrun : Reaches rwmf tr st) (hlen : tr.length < owner_marker)
    (hbal : rwmf = true ∨ ∀ op ∈ tr, ∀ j k, op ≠ Op.moveDepAssign j k) :
    MInv True tr.length st :=
  reaches_inv hrun hlen (fun _ => hbal)

@[simp] theorem depRelease_ref_count (B : Block) :
    (depRelease B).ref_count = (decRef B).ref_count := by
  cases B
  simp only [depRelease]
  split <;> rfl

/-- Setting one block whose `valueDestroys` is unchanged leaves every
slot's `valueDestroys` view unchanged. -/
theorem map_vd_set {l : List Block} {b : Nat} {B X : Block} (hB : l[b]? = some B)
    (hX : X.valueDestroys = B.valueDestroys) (b' : Nat) :
    ((l.set b X)[b']?).map Block.valueDestroys = (l[b']?).map Block.valueDestroys := by
  rcases eq_or_ne b b' with h | h
  · subst h
    have hlen : b < l.length := by
      by_contra hc
      rw [List.getElem?_eq_none (by omega)] at hB
      exact Option.noConfusion hB
    rw [List.getElem?_set_self hlen, hB]
    simp [hX]
  · rw [List.getElem?_set_ne h]

/-- No dependent-handle operation ever invokes the value's destructor: the
`valueDestroys` counter of every block is unchanged by every defined
dependent step.  (`delete_block` destroys the `Control` and frees memory
but never calls the stored deleter.) -/
theorem depOp_preserves_valueDestroys {rwmf : Bool} {st st2 : MState} {op : Op}
    (hop : isDepOp op = true) (hst : step rwmf st op = some st2) (b' : Nat) :
    (st2.blocks[b']?).map Block.valueDestroys = (st.blocks[b']?).map Block.valueDestroys := by
  cases op with
  | newOwner v => simp [isDepOp] at hop
  | destroyOwner i => simp [isDepOp] at hop
  | moveOwnerCtor i => simp [isDepOp] at hop
  | moveOwnerAssign i j => simp [isDepOp] at hop
  | makeDep i c =>
      simp only [step] at hst
      cases hoi : st.owners[i]? with
      | none =>
          rw [hoi] at hst
          exact Option.noConfusion hst
      | some h =>
          rw [hoi] at hst
          cases h with
          | dead => exact Option.noConfusion hst
          | live s =>
              cases s with
              | none => exact Option.noConfusion hst
              | some b =>
                  dsimp only at hst
                  cases hBq : st.blocks[b]? with
                  | none =>
                      rw [hBq] at hst
                      exact Option.noConfusion hst
                  | some B =>
                      rw [hBq] at hst
                      rw [← Option.some.inj hst]
                      exact map_vd_set hBq (incRef_valueDestroys B) b'
  | copyDepCtor j =>
      simp only [step] at hst
      cases hdj : st.deps[j]? with
      | none =>
          rw [hdj] at hst
          exact Option.noConfusion hst
      | some d =>
          rw [hdj] at hst
          obtain ⟨c, hs⟩ := d
          cases hs with
          | dead => exact Option.noConfusion hst
          | live s =>
              cases s with
              | none => exact Option.noConfusion hst
              | some b =>
                  dsimp only at hst
                  cases hBq : st.blocks[b]? with
                  | none =>
                      rw [hBq] at hst
                      exact Option.noConfusion hst
                  | some B =>
                      rw [hBq] at hst
                      rw [← Option.some.inj hst]
                      exact map_vd_set hBq (incRef_valueDestroys B) b'
  | moveDepCtor j =>
      simp only [step] at hst
      cases hdj : st.deps[j]? with
      | none =>
          rw [hdj] at hst
          exact Option.noConfusion hst
      | some d =>
          rw [hdj] at hst
          obtain ⟨c, hs⟩ := d
          cases hs with
          | dead => exact Option.noConfusion hst
          | live s =>
              cases rwmf with
              | true => rw [← Option.some.inj hst]
              | false =>
                  cases s with
                  | none => exact Option.noConfusion hst
                  | some b =>
                      dsimp only at hst
                      cases hBq : st.blocks[b]? with
                      | none =>
                          rw [hBq] at hst
                          exact Option.noConfusion hst
                      | some B =>
                          rw [hBq] at hst
                          rw [← Option.some.inj hst]
                          exact map_vd_set hBq (incRef_valueDestroys B) b'
  | moveDepAssign j k =>
      simp only [step] at hst
      cases hdj : st.deps[j]? with
      | none =>
          rw [hdj] at hst
          exact Option.noConfusion hst
      | some d =>
          rw [hdj] at hst
          obtain ⟨cj, hsj⟩ := d
          cases hsj with
          | dead => exact Option.noConfusion hst
          | live sj =>
              cases hdk : st.deps[k]? with
              | none =>
                  rw [hdk] at hst
                  exact Option.noConfusion hst
              | some d2 =>
                  rw [hdk] at hst
                  obtain ⟨ck, hsk⟩ := d2
                  cases hsk with
                  | dead => exact Option.noConfusion hst
                  | live sk =>
                      dsimp only at hst
                      rcases eq_or_ne cj ck with hcc | hcc
                      · rw [if_pos hcc] at hst
                        cases rwmf with
                        | true => rw [← Option.some.inj hst]
                        | false =>
                            rw [if_neg Bool.false_ne_true] at hst
                            rcases eq_or_ne j k with hjk | hjk
                            · rw [if_pos hjk] at hst
                              rw [← Option.some.inj hst]
                            · rw [if_neg hjk] at hst
                              cases sk with
                              | none => exact Option.noConfusion hst
                              | some b =>
                                  dsimp only at hst
                                  cases hBq : st.blocks[b]? with
                                  | none =>
                                      rw [hBq] at hst
                                      exact Option.noConfusion hst
                                  | some B =>
                                      rw [hBq] at hst
                                      rw [← Option.some.inj hst]
                                      exact map_vd_set hBq (incRef_valueDestroys B) b'
                      · rw [if_neg hcc] at hst
                        exact Option.noConfusion hst
  | copyDepAssign j k =>
      simp only [step] at hst
      cases hdj : st.deps[j]? with
      | none =>
          rw [hdj] at hst
          exact Option.noConfusion hst
      | some d =>
          rw [hdj] at hst
          obtain ⟨cj, hsj⟩ := d
          cases hsj with
          | dead => exact Option.noConfusion hst
          | live sj =>
              cases hdk : st.deps[k]? with
              | none =>
                  rw [hdk] at hst
                  exact Option.noConfusion hst
              | some d2 =>
                  rw [hdk] at hst
                  obtain ⟨ck, hsk⟩ := d2
                  cases hsk with
                  | dead => exact Option.noConfusion hst
                  | live sk =>
                      cases sk with
                      | none => exact Option.noConfusion hst
                      | some b =>
                          dsimp only at hst
                          rcases eq_or_ne cj ck with hcc | hcc
                          · rw [if_pos hcc] at hst
                            cases hBq : st.blocks[b]? with
                            | none =>
                                rw [hBq] at hst
                                exact Option.noConfusion hst
                            | some B =>
                                rw [hBq] at hst
                                dsimp only at hst
                                cases sj with
                                | none =>
                                    rw [← Option.some.inj hst]
                                    exact map_vd_set hBq (incRef_valueDestroys B) b'
                                | some a =>
                                    dsimp only at hst
                                    cases hBa : (st.blocks.set b (incRef B))[a]? with
                                    | none =>
                                        rw [hBa] at hst
                                        exact Option.noConfusion hst
                                    | some Ba =>
                                        rw [hBa] at hst
                                        rw [← Option.some.inj hst]
                                        have h1 := map_vd_set hBq (incRef_valueDestroys B) b'
                                        have h2 := map_vd_set hBa
                                          (depRelease_valueDestroys Ba) b'
                                        exact h2.trans h1
                          · rw [if_neg hcc] at hst
                            exact Option.noConfusion hst
  | destroyDep j =>
      simp only [step] at hst
      cases hdj : st.deps[j]? with
      | none =>
          rw [hdj] at hst
          exact Option.noConfusion hst
      | some d =>
          rw [hdj] at hst
          obtain ⟨c, hs⟩ := d
          cases hs with
          | dead => exact Option.noConfusion hst
          | live s =>
              cases s with
              | none => rw [← Option.some.inj hst]
              | some b =>
                  dsimp only at hst
                  cases hBq : st.blocks[b]? with
                  | none =>
                      rw [hBq] at hst
                      exact Option.noConfusion hst
                  | some B =>
                      rw [hBq] at hst
                      rw [← Option.some.inj hst]
                      exact map_vd_set hBq (depRelease_valueDestroys B) b'

/-- In a reachable state, a live block's owner bit reads exactly "one owner
handle is bound to it". -/
theorem has_owner_iff_ownersOn {bal : Prop} {n : Nat} {st : MState} {b : Nat} {B : Block}
    (hInv : MInv bal n st) (hn : n < owner_marker)
    (hB : st.blocks[b]? = some B) (hf : B.frees = 0) :
    B.has_owner = true ↔ ownersOn st b = 1 := by
  rcases (hInv.blockOk b B hB).alloc hf with ⟨u, hu1, hu2, hu3, hu4, hu5, hu6, hu7⟩
  rw [has_owner_eq hu6 hu5 (by omega)]
  simp

theorem has_owner_true_of_owner {bal : Prop} {n : Nat} {st : MState} {i b : Nat} {B : Block}
    (hInv : MInv bal n st) (hn : n < owner_marker)
    (hoi : st.owners[i]? = some (HandleState.live (some b)))
    (hB : st.blocks[b]? = some B) : B.has_owner = true := by
  have hopos := ownersOn_pos hoi
  have hf : B.frees = 0 := frees_eq_zero_of_bound hInv hB (by omega)
  rcases (hInv.blockOk b B hB).alloc hf with ⟨u, hu1, hu2, hu3, hu4, hu5, hu6, hu7⟩
  rw [has_owner_eq hu6 hu5 (by omega)]
  simp
  omega

theorem has_owner_false_incRef {bal : Prop} {n : Nat} {st : MState} {b : Nat} {B : Block}
    (hInv : MInv bal n st) (hn : n + 1 < owner_marker)
    (hB : st.blocks[b]? = some B) (hbound : 0 < ownersOn st b + depsOn st b)
    (hm : B.has_owner = false) : (incRef B).has_owner = false := by
  have hf : B.frees = 0 := frees_eq_zero_of_bound hInv hB hbound
  rcases (hInv.blockOk b B hB).alloc hf with ⟨u, hu1, hu2, hu3, hu4, hu5, hu6, hu7⟩
  have hown0 : ownersOn st b = 0 := by
    have hiff := has_owner_iff_ownersOn hInv (by omega) hB hf
    rcases Nat.le_one_iff_eq_zero_or_eq_one.mp hu5 with h | h
    · exact h
    · rw [hiff.mpr h] at hm
      exact Bool.noConfusion hm
  have hinc : (incRef B).ref_count = 0 * owner_marker + (u + 1) := by
    rw [hown0] at hu6
    exact incRef_ref_count hu6 (by omega) (by omega)
  rw [has_owner_eq hinc (by omega) (by omega)]
  simp

theorem has_owner_false_depRelease {bal : Prop} {n : Nat} {st : MState} {b : Nat} {B : Block}
    (hInv : MInv bal n st) (hn : n < owner_marker)
    (hB : st.blocks[b]? = some B) (hdpos : 0 < depsOn st b)
    (hm : B.has_owner = false) : (depRelease B).has_owner = false := by
  have hf : B.frees = 0 := frees_eq_zero_of_bound hInv hB (by omega)
  rcases (hInv.blockOk b B hB).alloc hf with ⟨u, hu1, hu2, hu3, hu4, hu5, hu6, hu7⟩
  have hown0 : ownersOn st b = 0 := by
    have hiff := has_owner_iff_ownersOn hInv hn hB hf
    rcases Nat.le_one_iff_eq_zero_or_eq_one.mp hu5 with h | h
    · exact h
    · rw [hiff.mpr h] at hm
      exact Bool.noConfusion hm
  have hdec : (depRelease B).ref_count = 0 * owner_marker + (u - 1) := by
    rw [depRelease_ref_count]
    rw [hown0] at hu6
    exact decRef_ref_count hu6 (by omega) (by omega) (by omega)
  rw [has_owner_eq hdec (by omega) (by omega)]
  simp

/-- Once a block's owner-alive bit is clear, no defined operation ever sets
it again. -/
theorem step_marker_mono {rwmf : Bool} {bal : Prop} {n : Nat} {st st2 : MState} {op : Op}
    {bq : Nat} {B : Block}
    (hInv : MInv bal n st) (hn : n + 1 < owner_marker)
    (hst : step rwmf st op = some st2)
    (hB : st.blocks[bq]? = some B) (hm : B.has_owner = false) :
    ∀ B2, st2.blocks[bq]? = some B2 → B2.has_owner = false := by
  have hbl : bq < st.blocks.length := by
    by_contra hc
    rw [List.getElem?_eq_none (by omega)] at hB
    exact Option.noConfusion hB
  have unchanged : ∀ B2 : Block, st.blocks[bq]? = some B2 → B2.has_owner = false := by
    intro B2 h2
    rw [hB] at h2
    rw [← Option.some.inj h2]
    exact hm
  cases op with
  | newOwner v =>
      simp only [step, Option.some.injEq] at hst
      rw [← hst]
      intro B2 hB2
      rcases append_singleton_lookup hB2 with hB2 | ⟨hl2, -⟩
      · exact unchanged B2 hB2
      · omega
  | destroyOwner i =>
      simp only [step] at hst
      cases hoi : st.owners[i]? with
      | none =>
          rw [hoi] at hst
          exact Option.noConfusion hst
      | some h =>
          rw [hoi] at hst
          cases h with
          | dead => exact Option.noConfusion hst
          | live s =>
              cases s with
              | none =>
                  rw [← Option.some.inj hst]
                  intro B2 hB2
                  dsimp only at hB2
                  exact unchanged B2 hB2
              | some b =>
                  dsimp only at hst
                  cases hBq : st.blocks[b]? with
                  | none =>
                      rw [hBq] at hst
                      exact Option.noConfusion hst
                  | some B0 =>
                      rw [hBq] at hst
                      rw [← Option.some.inj hst]
                      intro B2 hB2
                      rcases set_lookup_cases hB2 with ⟨ht, hX, -⟩ | ⟨hne, hB2⟩
                      · rw [ht] at hoi
                        have := has_owner_true_of_owner hInv (by omega) hoi hB
                        rw [hm] at this
                        exact Bool.noConfusion this
                      · exact unchanged B2 hB2
  | moveOwnerCtor i =>
      simp only [step] at hst
      cases hoi : st.owners[i]? with
      | none =>
          rw [hoi] at hst
          exact Option.noConfusion hst
      | some h =>
          rw [hoi] at hst
          cases h with
          | dead => exact Option.noConfusion hst
          | live s =>
              rw [← Option.some.inj hst]
              intro B2 hB2
              dsimp only at hB2
              exact unchanged B2 hB2
  | moveOwnerAssign i j =>
      simp only [step] at hst
      cases hoi : st.owners[i]? with
      | none =>
          rw [hoi] at hst
          exact Option.noConfusion hst
      | some h =>
          rw [hoi] at hst
          cases h with
          | dead => exact Option.noConfusion hst
          | live si =>
              cases hoj : st.owners[j]? with
              | none =>
                  rw [hoj] at hst
                  exact Option.noConfusion hst
              | some h2 =>
                  rw [hoj] at hst
                  cases h2 with
                  | dead => exact Option.noConfusion hst
                  | live sj =>
                      rw [← Option.some.inj hst]
                      intro B2 hB2
                      dsimp only at hB2
                      exact unchanged B2 hB2
  | makeDep i c =>
      simp only [step] at hst
      cases hoi : st.owners[i]? with
      | none =>
          rw [hoi] at hst
          exact Option.noConfusion hst
      | some h =>
          rw [hoi] at hst
          cases h with
          | dead => exact Option.noConfusion hst
          | live s =>
              cases s with
              | none => exact Option.noConfusion hst
              | some b =>
                  dsimp only at hst
                  cases hBq : st.blocks[b]? with
                  | none =>
                      rw [hBq] at hst
                      exact Option.noConfusion hst
                  | some B0 =>
                      rw [hBq] at hst
                      rw [← Option.some.inj hst]
                      intro B2 hB2
                      rcases set_lookup_cases hB2 with ⟨ht, hX, -⟩ | ⟨hne, hB2⟩
                      · rw [ht] at hoi
                        have := has_owner_true_of_owner hInv (by omega) hoi hB
                        rw [hm] at this
                        exact Bool.noConfusion this
                      · exact unchanged B2 hB2
  | copyDepCtor j =>
      simp only [step] at hst
      cases hdj : st.deps[j]? with
      | none =>
          rw [hdj] at hst
          exact Option.noConfusion hst
      | some d =>
          rw [hdj] at hst
          obtain ⟨c, hs⟩ := d
          cases hs with
          | dead => exact Option.noConfusion hst
          | live s =>
              cases s with
              | none => exact Option.noConfusion hst
              | some b =>
                  dsimp only at hst
                  cases hBq : st.blocks[b]? with
                  | none =>
                      rw [hBq] at hst
                      exact Option.noConfusion hst
                  | some B0 =>
                      rw [hBq] at hst
                      rw [← Option.some.inj hst]
                      intro B2 hB2
                      rcases set_lookup_cases hB2 with ⟨ht, hX, -⟩ | ⟨hne, hB2⟩
                      · rw [ht] at hBq
                        rw [hB] at hBq
                        rw [hX, ← Option.some.inj hBq]
                        have hdpos := depsOn_pos hdj rfl
                        rw [ht] at hdpos
                        exact has_owner_false_incRef hInv hn hB (by omega) hm
                      · exact unchanged B2 hB2
  | moveDepCtor j =>
      simp only [step] at hst
      cases hdj : st.deps[j]? with
      | none =>
          rw [hdj] at hst
          exact Option.noConfusion hst
      | some d =>
          rw [hdj] at hst
          obtain ⟨c, hs⟩ := d
          cases hs with
          | dead => exact Option.noConfusion hst
          | live s =>
              cases rwmf with
              | true =>
                  rw [← Option.some.inj hst]
                  intro B2 hB2
                  dsimp only at hB2
                  exact unchanged B2 hB2
              | false =>
                  cases s with
                  | none => exact Option.noConfusion hst
                  | some b =>
                      dsimp only at hst
                      cases hBq : st.blocks[b]? with
                      | none =>
                          rw [hBq] at hst
                          exact Option.noConfusion hst
                      | some B0 =>
                          rw [hBq] at hst
                          rw [← Option.some.inj hst]
                          intro B2 hB2
                          rcases set_lookup_cases hB2 with ⟨ht, hX, -⟩ | ⟨hne, hB2⟩
                          · rw [ht] at hBq
                            rw [hB] at hBq
                            rw [hX, ← Option.some.inj hBq]
                            have hdpos := depsOn_pos hdj rfl
                            rw [ht] at hdpos
                            exact has_owner_false_incRef hInv hn hB (by omega) hm
                          · exact unchanged B2 hB2
  | moveDepAssign j k =>
      simp only [step] at hst
      cases hdj : st.deps[j]? with
      | none =>
          rw [hdj] at hst
          exact Option.noConfusion hst
      | some d =>
          rw [hdj] at hst
          obtain ⟨cj, hsj⟩ := d
          cases hsj with
          | dead => exact Option.noConfusion hst
          | live sj =>
              cases hdk : st.deps[k]? with
              | none =>
                  rw [hdk] at hst
                  exact Option.noConfusion hst
              | some d2 =>
                  rw [hdk] at hst
                  obtain ⟨ck, hsk⟩ := d2
                  cases hsk with
                  | dead => exact Option.noConfusion hst
                  | live sk =>
                      dsimp only at hst
                      rcases eq_or_ne cj ck with hcc | hcc
                      · rw [if_pos hcc] at hst
                        cases rwmf with
                        | true =>
                            rw [← Option.some.inj hst]
                            intro B2 hB2
                            dsimp only at hB2
                            exact unchanged B2 hB2
                        | false =>
                            rw [if_neg Bool.false_ne_true] at hst
                            rcases eq_or_ne j k with hjk | hjk
                            · rw [if_pos hjk] at hst
                              rw [← Option.some.inj hst]
                              exact unchanged
                            · rw [if_neg hjk] at hst
                              cases sk with
                              | none => exact Option.noConfusion hst
                              | some b =>
                                  dsimp only at hst
                                  cases hBq : st.blocks[b]? with
                                  | none =>
                                      rw [hBq] at hst
                                      exact Option.noConfusion hst
                                  | some B0 =>
                                      rw [hBq] at hst
                                      rw [← Option.some.inj hst]
                                      intro B2 hB2
                                      rcases set_lookup_cases hB2 with ⟨ht, hX, -⟩ | ⟨hne, hB2⟩
                                      · rw [ht] at hBq
                                        rw [hB] at hBq
                                        rw [hX, ← Option.some.inj hBq]
                                        have hdpos := depsOn_pos hdk rfl
                                        rw [ht] at hdpos
                                        exact has_owner_false_incRef hInv hn hB (by omega) hm
                                      · exact unchanged B2 hB2
                      · rw [if_neg hcc] at hst
                        exact Option.noConfusion hst
  | copyDepAssign j k =>
      simp only [step] at hst
      cases hdj : st.deps[j]? with
      | none =>
          rw [hdj] at hst
          exact Option.noConfusion hst
      | some d =>
          rw [hdj] at hst
          obtain ⟨cj, hsj⟩ := d
          cases hsj with
          | dead => exact Option.noConfusion hst
          | live sj =>
              cases hdk : st.deps[k]? with
              | none =>
                  rw [hdk] at hst
                  exact Option.noConfusion hst
              | some d2 =>
                  rw [hdk] at hst
                  obtain ⟨ck, hsk⟩ := d2
                  cases hsk with
                  | dead => exact Option.noConfusion hst
                  | live sk =>
                      cases sk with
                      | none => exact Option.noConfusion hst
                      | some b =>
                          dsimp only at hst
                          rcases eq_or_ne cj ck with hcc | hcc
                          · rw [if_pos hcc] at hst
                            cases hBq : st.blocks[b]? with
                            | none =>
                                rw [hBq] at hst
                                exact Option.noConfusion hst
                            | some B0 =>
                                rw [hBq] at hst
                                dsimp only at hst
                                cases sj with
                                | none =>
                                    rw [← Option.some.inj hst]
                                    intro B2 hB2
                                    rcases set_lookup_cases hB2 with ⟨ht, hX, -⟩ | ⟨hne, hB2⟩
                                    · rw [ht] at hBq
                                      rw [hB] at hBq
                                      rw [hX, ← Option.some.inj hBq]
                                      have hdpos := depsOn_pos hdk rfl
                                      rw [ht] at hdpos
                                      exact has_owner_false_incRef hInv hn hB (by omega) hm
                                    · exact unchanged B2 hB2
                                | some a =>
                                    dsimp only at hst
                                    cases hBa : (st.blocks.set b (incRef B0))[a]? with
                                    | none =>
                                        rw [hBa] at hst
                                        exact Option.noConfusion hst
                                    | some Ba =>
                                        rw [hBa] at hst
                                        rw [← Option.some.inj hst]
                                        intro B2 hB2
                                        rcases set_lookup_cases hB2 with
                                          ⟨hta, hXa, -⟩ | ⟨hnea, hB2⟩
                                        · -- the released slot
                                          rcases set_lookup_cases hBa with
                                            ⟨htb, hXb, -⟩ | ⟨hneb, hBa⟩
                                          · -- same block: inc then release is the identity
                                            rw [htb] at hBq
                                            rw [hta] at hBq
                                            rw [hB] at hBq
                                            have hB0B : B0 = B := (Option.some.inj hBq).symm
                                            have hdpos := depsOn_pos hdk rfl
                                            rw [htb, hta] at hdpos
                                            have hf : B.frees = 0 :=
                                              frees_eq_zero_of_bound hInv hB (by omega)
                                            rcases (hInv.blockOk bq B hB).alloc hf with
                                              ⟨u, hu1, hu2, hu3, hu4, hu5, hu6, hu7⟩
                                            rw [hXa, hXb, hB0B,
                                              depRelease_incRef_eq hu6 hu5 hu4 (by omega)]
                                            exact hm
                                          · rw [hta] at hBa
                                            rw [hB] at hBa
                                            rw [hXa, ← Option.some.inj hBa]
                                            have hdpos := depsOn_pos hdj rfl
                                            rw [hta] at hdpos
                                            exact has_owner_false_depRelease hInv (by omega)
                                              hB hdpos hm
                                        · rcases set_lookup_cases hB2 with
                                            ⟨htb, hXb, -⟩ | ⟨hneb, hB2⟩
                                          · rw [htb] at hBq
                                            rw [hB] at hBq
                                            rw [hXb, ← Option.some.inj hBq]
                                            have hdpos := depsOn_pos hdk rfl
                                            rw [htb] at hdpos
                                            exact has_owner_false_incRef hInv hn hB
                                              (by omega) hm
                                          · exact unchanged B2 hB2
                          · rw [if_neg hcc] at hst
                            exact Option.noConfusion hst
  | destroyDep j =>
      simp only [step] at hst
      cases hdj : st.deps[j]? with
      | none =>
          rw [hdj] at hst
          exact Option.noConfusion hst
      | some d =>
          rw [hdj] at hst
          obtain ⟨c, hs⟩ := d
          cases hs with
          | dead => exact Option.noConfusion hst
          | live s =>
              cases s with
              | none =>
                  rw [← Option.some.inj hst]
                  intro B2 hB2
                  dsimp only at hB2
                  exact unchanged B2 hB2
              | some b =>
                  dsimp only at hst
                  cases hBq : st.blocks[b]? with
                  | none =>
                      rw [hBq] at hst
                      exact Option.noConfusion hst
                  | some B0 =>
                      rw [hBq] at hst
                      rw [← Option.some.inj hst]
                      intro B2 hB2
                      rcases set_lookup_cases hB2 with ⟨ht, hX, -⟩ | ⟨hne, hB2⟩
                      · rw [ht] at hBq
                        rw [hB] at hBq
                        rw [hX, ← Option.some.inj hBq]
                        have hdpos := depsOn_pos hdj rfl
                        rw [ht] at hdpos
                        exact has_owner_false_depRelease hInv (by omega) hB hdpos hm
                      · exact unchanged B2 hB2

/-! ## The claims -/

/-- C10: The default ErrorHandler policy (`owned_ptr_error_handler`)
selects the safe moved-from discipline in every build configuration:
`reset_when_moved_from` is `true` both in the debug branch (NDEBUG
undefined) and in the release branch (NDEBUG defined), so by default a
moved-from dependent is always reset to empty. -/
theorem C10_default_policy_always_safe_discipline :
    reset_when_moved_from_debug = true ∧ reset_when_moved_from_release = true ∧
    ∀ ndebug_defined : Bool, default_reset_when_moved_from ndebug_defined = true := by
  refine ⟨rfl, rfl, ?_⟩
  intro nd
  cases nd <;> rfl

/-- C9: Destroying an empty (moved-from, safe-discipline) handle is a
no-op at the public interface: the destructor of a moved-from owner, and
of a moved-from dependent of either constness, only marks the handle dead;
the block list — every block's reference count, owner-alive marker, value
and memory — is completely unchanged and nothing is freed. -/
theorem C9_destroying_empty_handle_is_noop (rwmf : Bool) (st : MState) :
    (∀ i, st.owners[i]? = some (HandleState.live none) →
      step rwmf st (Op.destroyOwner i)
        = some { st with owners := st.owners.set i HandleState.dead }) ∧
    (∀ j c, st.deps[j]? = some ⟨c, HandleState.live none⟩ →
      step rwmf st (Op.destroyDep j)
        = some { st with deps := st.deps.set j ⟨c, HandleState.dead⟩ }) := by
  constructor
  · intro i hi
    simp [step, hi]
  · intro j c hj
    simp [step, hj]

/-- C9 witness: the no-op destructors evaluated on a concrete state with a
moved-from owner and a moved-from dependent. -/
theorem C9_destroying_empty_handle_is_noop_witness :
    ((stateAfter true trMovedFrom).owners[0]? = some (HandleState.live none) ∧
      step true (stateAfter true trMovedFrom) (Op.destroyOwner 0)
        = some { stateAfter true trMovedFrom with
                  owners := (stateAfter true trMovedFrom).owners.set 0 HandleState.dead }) ∧
    ((stateAfter true trMovedFrom).deps[0]? = some ⟨false, HandleState.live none⟩ ∧
      step true (stateAfter true trMovedFrom) (Op.destroyDep 0)
        = some { stateAfter true trMovedFrom with
                  deps := (stateAfter true trMovedFrom).deps.set 0
                    ⟨false, HandleState.dead⟩ }) :=
  ⟨⟨by decide, (C9_destroying_empty_handle_is_noop true _).1 0 (by decide)⟩,
   ⟨by decide, (C9_destroying_empty_handle_is_noop true _).2 0 false (by decide)⟩⟩

/-- C4 counterexample: in Scenario C (Owner A holds "Foo", Owner B holds
"Bar", then `A = move(B)`), immediately after the move-assignment
dereferencing A does yield "Bar", but the original "Foo" block has NOT
been freed: move-assignment swaps the two storages, so the moved-from B
now holds the "Foo" block, whose value destructor has not run and whose
memory is intact (`valueDestroys = 0`, `frees = 0`). -/
theorem C4_counterexample_foo_block_not_freed :
    Reaches true trScenarioC (stateAfter true trScenarioC) ∧
    owned_deref (stateAfter true trScenarioC) 0 = some (Access.ok "Bar") ∧
    (stateAfter true trScenarioC).owners[1]? = some (HandleState.live (some 0)) ∧
    blockAt (stateAfter true trScenarioC) 0 = ⟨owner_marker, 0, 0, "Foo"⟩ :=
  ⟨rfl, by decide, by decide, by decide⟩

/-- C4 (amended): after `A = move(B)` dereferencing A yields "Bar";
the "Foo" block is not freed by the assignment itself — B holds it, with
zero dependents — and it is freed, its value destructor having run with
zero dependents, when the moved-from B is destroyed. -/
theorem C4_amended_foo_block_freed_when_b_destroyed :
    Reaches true trScenarioC2 (stateAfter true trScenarioC2) ∧
    owned_deref (stateAfter true trScenarioC2) 0 = some (Access.ok "Bar") ∧
    num_deps (stateAfter true trScenarioC) 1 = some 0 ∧
    blockAt (stateAfter true trScenarioC2) 0 = ⟨0, 1, 1, "Foo"⟩ :=
  ⟨rfl, by decide, by decide, by decide⟩

/-- C5 counterexample: under the fast discipline, move-assigning a bound
dependent onto another bound dependent of the same block overwrites the
target's old binding without decrementing the count, so after every handle
(both dependents and the owner) has been destroyed the block still has one
count unit left and has never been freed (`ref_count = 1`, `frees = 0`):
not every increment is matched by a decrement, and the block leaks. -/
theorem C5_counterexample_fast_move_assign_leaks :
    Reaches false trFastAssign (stateAfter false trFastAssign) ∧
    (∀ h ∈ (stateAfter false trFastAssign).owners, h = HandleState.dead) ∧
    (∀ d ∈ (stateAfter false trFastAssign).deps, d.hs = HandleState.dead) ∧
    (stateAfter false trFastAssign).blocks = [⟨1, 1, 0, "v"⟩] :=
  ⟨rfl, by decide, by decide, by decide⟩

/-- C6 counterexample: under the safe discipline, dependent move-assignment
is implemented by swap, so when the move-assignment target already held a
binding the moved-from source does NOT become empty: it ends up bound to
the target's former block, and dereferencing it succeeds without any
failing ErrorHandler check. -/
theorem C6_counterexample_moved_from_dep_not_empty :
    Reaches true trSafeAssign (stateAfter true trSafeAssign) ∧
    (stateAfter true trSafeAssign).deps[1]? = some ⟨false, HandleState.live (some 0)⟩ ∧
    dep_deref (stateAfter true trSafeAssign) 1 = some (Access.ok "v") :=
  ⟨rfl, by decide, by decide⟩

/-- C1: In every reachable state of a program (any discipline, fewer than
`2 ^ 63` operations), each block's value destructor has been invoked at
most once, and has been invoked exactly when no owner handle claims the
block any more; no dependent-handle operation (creation, destruction, copy
or move) ever changes any block's destructor-invocation count; and the
step destroying the owner bound to a block takes that block's count from
exactly 0 to exactly 1 — the destructor runs exactly once, exactly at
owner destruction. -/
theorem C1_value_destructor_runs_exactly_once_at_owner_destruction
    (rwmf : Bool) (tr : List Op) (st : MState)
    (hrun : Reaches rwmf tr st) (hlen : tr.length < owner_marker) :
    (∀ b B, st.blocks[b]? = some B →
      B.valueDestroys ≤ 1 ∧ (B.valueDestroys = 0 ↔ 0 < ownersOn st b)) ∧
    (∀ (op : Op) (st2 : MState), isDepOp op = true → step rwmf st op = some st2 →
      ∀ (b : Nat), (st2.blocks[b]?).map Block.valueDestroys
        = (st.blocks[b]?).map Block.valueDestroys) ∧
    (∀ i b B st2, st.owners[i]? = some (HandleState.live (some b)) →
      st.blocks[b]? = some B → step rwmf st (Op.destroyOwner i) = some st2 →
      B.valueDestroys = 0 ∧ (st2.blocks[b]?).map Block.valueDestroys = some 1) := by
  have hInv := reaches_inv_plain hrun hlen
  refine ⟨?_, ?_, ?_⟩
  · intro b B hB
    have hOk := hInv.blockOk b B hB
    rcases Nat.lt_or_ge B.frees 1 with hf | hf
    · have hf0 : B.frees = 0 := by omega
      rcases hOk.alloc hf0 with ⟨u, hu1, hu2, hu3, hu4, hu5, hu6, hu7⟩
      exact ⟨by omega, by omega⟩
    · have hf1 : B.frees = 1 := by
        have := hOk.frees_le
        omega
      have h := hOk.freed hf1
      exact ⟨by omega, by omega⟩
  · intro op st2 hop hst b
    exact depOp_preserves_valueDestroys hop hst b
  · intro i b B st2 hoi hB hst
    have hopos := ownersOn_pos hoi
    have hf : B.frees = 0 := frees_eq_zero_of_bound hInv hB (by omega)
    rcases (hInv.blockOk b B hB).alloc hf with ⟨u, hu1, hu2, hu3, hu4, hu5, hu6, hu7⟩
    have hvd0 : B.valueDestroys = 0 := by omega
    refine ⟨hvd0, ?_⟩
    have hbl : b < st.blocks.length := by
      by_contra hc
      rw [List.getElem?_eq_none (by omega)] at hB
      exact Option.noConfusion hB
    simp only [step] at hst
    rw [hoi] at hst
    dsimp only at hst
    rw [hB] at hst
    rw [← Option.some.inj hst]
    dsimp only
    rw [List.getElem?_set_self hbl]
    have hXvd : (if (runDeleter (clearOwnerBit B)).ref_count = 0
        then freeBlock (runDeleter (clearOwnerBit B))
        else runDeleter (clearOwnerBit B)).valueDestroys = B.valueDestroys + 1 := by
      split <;> simp
    simp only [Option.map_some', hXvd, hvd0]

/-- C1 witness: the theorem evaluated on the concrete run that creates an
owner with one dependent and destroys the owner. -/
theorem C1_value_destructor_runs_exactly_once_at_owner_destruction_witness :
    (Reaches true trOneDep (stateAfter true trOneDep) ∧
      trOneDep.length < owner_marker) ∧
    ((∀ b B, (stateAfter true trOneDep).blocks[b]? = some B →
      B.valueDestroys ≤ 1 ∧
        (B.valueDestroys = 0 ↔ 0 < ownersOn (stateAfter true trOneDep) b)) ∧
    (∀ (op : Op) (st2 : MState), isDepOp op = true →
      step true (stateAfter true trOneDep) op = some st2 →
      ∀ (b : Nat), (st2.blocks[b]?).map Block.valueDestroys
        = ((stateAfter true trOneDep).blocks[b]?).map Block.valueDestroys) ∧
    (∀ i b B st2,
      (stateAfter true trOneDep).owners[i]? = some (HandleState.live (some b)) →
      (stateAfter true trOneDep).blocks[b]? = some B →
      step true (stateAfter true trOneDep) (Op.destroyOwner i) = some st2 →
      B.valueDestroys = 0 ∧ (st2.blocks[b]?).map Block.valueDestroys = some 1)) :=
  ⟨⟨rfl, by decide⟩,
    C1_value_destructor_runs_exactly_once_at_owner_destruction true trOneDep
      (stateAfter true trOneDep) rfl (by decide)⟩

/-- C2 counterexample exists separately; this is the amended claim.  In
any reachable state with exact accounting (safe discipline, or any run
without dependent move-assignments — a fast move-assignment skips a
decrement and defeats the deferred free, which is the counterexample), a
block is freed at most once; destroying the owner while at least one
dependent is bound to the block does not free it; and once the owner is
gone, destroying a bound dependent frees the block exactly when it is the
last dependent bound to it. -/
theorem C2_block_freed_exactly_by_last_dependent
    (rwmf : Bool) (tr : List Op) (st : MState)
    (hrun : Reaches rwmf tr st) (hlen : tr.length < owner_marker)
    (hbal : rwmf = true ∨ ∀ op ∈ tr, ∀ j k, op ≠ Op.moveDepAssign j k)
    (b : Nat) (B : Block) (hB : st.blocks[b]? = some B) :
    B.frees ≤ 1 ∧
    (∀ (i : Nat) (st2 : MState) (B2 : Block),
      st.owners[i]? = some (HandleState.live (some b)) → 1 ≤ depsOn st b →
      step rwmf st (Op.destroyOwner i) = some st2 → st2.blocks[b]? = some B2 →
      B2.frees = 0) ∧
    (∀ (j : Nat) (c : Bool) (st2 : MState) (B2 : Block),
      st.deps[j]? = some ⟨c, HandleState.live (some b)⟩ → ownersOn st b = 0 →
      step rwmf st (Op.destroyDep j) = some st2 → st2.blocks[b]? = some B2 →
      B2.frees = if depsOn st b = 1 then 1 else 0) := by
  have hInv := reaches_inv_bal hrun hlen hbal
  refine ⟨(hInv.blockOk b B hB).frees_le, ?_, ?_⟩
  · intro i st2 B2 hoi hd hst hB2
    have hopos := ownersOn_pos hoi
    have hf : B.frees = 0 := frees_eq_zero_of_bound hInv hB (by omega)
    rcases (hInv.blockOk b B hB).alloc hf with ⟨u, hu1, hu2, hu3, hu4, hu5, hu6, hu7⟩
    have hu := hu3 trivial
    simp only [step] at hst
    rw [hoi] at hst
    dsimp only at hst
    rw [hB] at hst
    rw [← Option.some.inj hst] at hB2
    rcases set_lookup_cases hB2 with ⟨-, hX, -⟩ | ⟨hne, -⟩
    · have hcl : (runDeleter (clearOwnerBit B)).ref_count = u := by
        rw [runDeleter_ref_count]
        exact clearOwnerBit_ref_count hu6 hu5 (by omega)
      rw [hX, if_neg (by rw [hcl]; omega), runDeleter_frees, clearOwnerBit_frees]
      exact hf
    · exact absurd rfl hne
  · intro j c st2 B2 hdj hown hst hB2
    have hdpos := depsOn_pos hdj rfl
    have hf : B.frees = 0 := frees_eq_zero_of_bound hInv hB (by omega)
    rcases (hInv.blockOk b B hB).alloc hf with ⟨u, hu1, hu2, hu3, hu4, hu5, hu6, hu7⟩
    have hu := hu3 trivial
    simp only [step] at hst
    rw [hdj] at hst
    dsimp only at hst
    rw [hB] at hst
    rw [← Option.some.inj hst] at hB2
    rcases set_lookup_cases hB2 with ⟨-, hX, -⟩ | ⟨hne, -⟩
    · have hdec : (decRef B).ref_count = 0 * owner_marker + (u - 1) := by
        rw [hown] at hu6
        exact decRef_ref_count hu6 (by omega) (by omega) (by omega)
      rw [hX]
      by_cases hz : (decRef B).ref_count = 0
      · have hu1e : u = 1 := by
          rw [hdec] at hz
          omega
        have hrel : depRelease B = freeBlock (decRef B) := by
          simp only [depRelease]
          rw [if_pos hz]
        rw [hrel, freeBlock_frees, decRef_frees, hf, if_pos (by omega)]
      · have hune : u ≠ 1 := by
          intro h1
          rw [hdec, h1] at hz
          simp at hz
        have hrel : depRelease B = decRef B := by
          simp only [depRelease]
          rw [if_neg hz]
        rw [hrel, decRef_frees, hf, if_neg (by omega)]
    · exact absurd rfl hne

/-- C3: The owner-alive marker protocol.  A freshly created block carries
the marker (its word is exactly `owner_marker`); in any reachable state a
live block's marker is set exactly when one owner handle claims it; once
clear, no operation ever sets the marker again; and the step destroying
the owner bound to a block clears the marker, runs the value's destructor
(taking `valueDestroys` to 1, regardless of outstanding dependents), and
frees the block's memory exactly when the masked dependent count
`ref_count & ~owner_marker` is then zero. -/
theorem C3_owner_marker_lifecycle (rwmf : Bool) (tr : List Op) (st : MState)
    (hrun : Reaches rwmf tr st) (hlen : tr.length + 1 < owner_marker) :
    (∀ (v : String) (st2 : MState), step rwmf st (Op.newOwner v) = some st2 →
      st2.blocks[st.blocks.length]? = some ⟨owner_marker, 0, 0, v⟩) ∧
    (∀ (b : Nat) (B : Block), st.blocks[b]? = some B → B.frees = 0 →
      (B.has_owner = true ↔ ownersOn st b = 1)) ∧
    (∀ (op : Op) (st2 : MState) (b : Nat) (B B2 : Block),
      step rwmf st op = some st2 → st.blocks[b]? = some B →
      st2.blocks[b]? = some B2 → B.has_owner = false → B2.has_owner = false) ∧
    (∀ (i b : Nat) (B : Block) (st2 : MState) (B2 : Block),
      st.owners[i]? = some (HandleState.live (some b)) →
      st.blocks[b]? = some B → step rwmf st (Op.destroyOwner i) = some st2 →
      st2.blocks[b]? = some B2 →
      B2.has_owner = false ∧ B2.valueDestroys = 1 ∧
      B2.frees = if B.ref_count &&& (owner_marker - 1) = 0 then 1 else 0) := by
  have hInv := reaches_inv_plain hrun (by omega)
  refine ⟨?_, ?_, ?_, ?_⟩
  · intro v st2 hst
    simp only [step, Option.some.injEq] at hst
    rw [← hst]
    dsimp only
    exact List.getElem?_concat_length st.blocks _
  · intro b B hB hf
    exact has_owner_iff_ownersOn hInv (by omega) hB hf
  · intro op st2 b B B2 hst hB hB2 hm
    exact step_marker_mono hInv (by omega) hst hB hm B2 hB2
  · intro i b B st2 B2 hoi hB hst hB2
    have hopos := ownersOn_pos hoi
    have hf : B.frees = 0 := frees_eq_zero_of_bound hInv hB (by omega)
    rcases (hInv.blockOk b B hB).alloc hf with ⟨u, hu1, hu2, hu3, hu4, hu5, hu6, hu7⟩
    have hvd0 : B.valueDestroys = 0 := by omega
    have hcl : (runDeleter (clearOwnerBit B)).ref_count = u := by
      rw [runDeleter_ref_count]
      exact clearOwnerBit_ref_count hu6 hu5 (by omega)
    have hmask : B.ref_count &&& (owner_marker - 1) = u := by
      have h := clearOwnerBit_ref_count hu6 hu5 (by omega)
      rw [clearOwnerBit_ref_count_def] at h
      exact h
    simp only [step] at hst
    rw [hoi] at hst
    dsimp only at hst
    rw [hB] at hst
    rw [← Option.some.inj hst] at hB2
    rcases set_lookup_cases hB2 with ⟨-, hX, -⟩ | ⟨hne, -⟩
    · refine ⟨?_, ?_, ?_⟩
      · rw [hX]
        by_cases hz : (runDeleter (clearOwnerBit B)).ref_count = 0
        · rw [if_pos hz]
          have hrc : (freeBlock (runDeleter (clearOwnerBit B))).ref_count
              = 0 * owner_marker + u := by
            rw [freeBlock_ref_count, hcl]
            omega
          rw [has_owner_eq hrc (by omega) (by omega)]
          simp
        · rw [if_neg hz]
          have hrc : (runDeleter (clearOwnerBit B)).ref_count = 0 * owner_marker + u := by
            rw [hcl]
            omega
          rw [has_owner_eq hrc (by omega) (by omega)]
          simp
      · rw [hX]
        have hXvd : (if (runDeleter (clearOwnerBit B)).ref_count = 0
            then freeBlock (runDeleter (clearOwnerBit B))
            else runDeleter (clearOwnerBit B)).valueDestroys = B.valueDestroys + 1 := by
          split <;> simp
        rw [hXvd, hvd0]
      · rw [hX, hmask]
        by_cases hz : (runDeleter (clearOwnerBit B)).ref_count = 0
        · rw [if_pos hz, if_pos (by rw [← hcl]; exact hz), freeBlock_frees,
            runDeleter_frees, clearOwnerBit_frees, hf]
        · rw [if_neg hz, if_neg (by rw [← hcl]; exact hz), runDeleter_frees,
            clearOwnerBit_frees, hf]
    · exact absurd rfl hne

/-- C7: In any reachable state, if the owner of a live block is gone
(no owner handle claims it), then the block's owner-alive marker is
clear, and dereferencing any still-live dependent bound to it — mutable
or read-only — is caught by the marker check and reports the
owner-deleted fault instead of accessing the value. -/
theorem C7_deref_after_owner_destroyed_is_caught
    (rwmf : Bool) (tr : List Op) (st : MState)
    (hrun : Reaches rwmf tr st) (hlen : tr.length < owner_marker)
    (b : Nat) (B : Block) (hB : st.blocks[b]? = some B)
    (hown : ownersOn st b = 0) :
    ∀ (j : Nat) (d : DepHandle), st.deps[j]? = some d →
      d.hs = HandleState.live (some b) →
      B.has_owner = false ∧
      (d.isConst = false → dep_deref st j = some Access.fault_owner_deleted) ∧
      (d.isConst = true → dep_const_deref st j = some Access.fault_owner_deleted) := by
  have hInv := reaches_inv_plain hrun hlen
  intro j d hdj hdb
  obtain ⟨ci, hs⟩ := d
  dsimp only at hdb
  subst hdb
  have hdpos := depsOn_pos hdj rfl
  have hf : B.frees = 0 := frees_eq_zero_of_bound hInv hB (by omega)
  have hm : B.has_owner = false := by
    have hiff := has_owner_iff_ownersOn hInv (by omega) hB hf
    cases hho : B.has_owner
    · rfl
    · exact absurd (hiff.mp hho) (by omega)
  refine ⟨hm, ?_, ?_⟩
  · intro hc
    subst hc
    simp only [dep_deref]
    rw [hdj]
    dsimp only
    rw [hB]
    simp only [Option.map_some']
    rw [hm]
    simp
  · intro hc
    subst hc
    simp only [dep_const_deref]
    rw [hdj]
    dsimp only
    rw [hB]
    simp only [Option.map_some']
    rw [hm]
    simp

/-- C8: Owner access and make_dependent are checked.  In any reachable
state: dereferencing owner handle i reports the moved-from fault exactly
when the handle is live but empty; on a non-empty owner the block is
live (not freed, value not destroyed) and the access returns its value;
make_dependent on an empty owner fails the emptiness check; and
make_dependent on a non-empty owner succeeds, binds a new dependent
handle to the owner's block, and increments the masked dependent count by
one. -/
theorem C8_owner_access_and_make_dependent_checked
    (rwmf : Bool) (tr : List Op) (st : MState)
    (hrun : Reaches rwmf tr st) (hlen : tr.length + 1 < owner_marker) (i : Nat) :
    (owned_deref st i = some Access.fault_moved_from ↔
      st.owners[i]? = some (HandleState.live none)) ∧
    (∀ (b : Nat), st.owners[i]? = some (HandleState.live (some b)) →
      ∃ B, st.blocks[b]? = some B ∧ B.frees = 0 ∧ B.valueDestroys = 0 ∧
        owned_deref st i = some (Access.ok B.value)) ∧
    (∀ (c : Bool), st.owners[i]? = some (HandleState.live none) →
      step rwmf st (Op.makeDep i c) = none) ∧
    (∀ (c : Bool) (b : Nat) (B : Block),
      st.owners[i]? = some (HandleState.live (some b)) → st.blocks[b]? = some B →
      ∃ st2, step rwmf st (Op.makeDep i c) = some st2 ∧
        st2.deps[st.deps.length]? = some ⟨c, HandleState.live (some b)⟩ ∧
        num_deps st2 i = some ((B.ref_count &&& (owner_marker - 1)) + 1)) := by
  have hInv := reaches_inv_plain hrun (by omega)
  refine ⟨?_, ?_, ?_, ?_⟩
  · cases hoi : st.owners[i]? with
    | none => simp [owned_deref, hoi]
    | some h =>
      cases h with
      | dead => simp [owned_deref, hoi]
      | live s =>
        cases s with
        | none => simp [owned_deref, hoi]
        | some b =>
          simp only [owned_deref, hoi]
          cases hb : st.blocks[b]? with
          | none => simp
          | some B => simp
  · intro b hoi
    have hopos := ownersOn_pos hoi
    have hbl : b < st.blocks.length := hInv.ownerRange i b hoi
    obtain ⟨B, hB⟩ : ∃ B, st.blocks[b]? = some B :=
      ⟨st.blocks[b], List.getElem?_eq_getElem hbl⟩
    have hf : B.frees = 0 := frees_eq_zero_of_bound hInv hB (by omega)
    rcases (hInv.blockOk b B hB).alloc hf with ⟨u, hu1, hu2, hu3, hu4, hu5, hu6, hu7⟩
    refine ⟨B, hB, hf, by omega, ?_⟩
    simp only [owned_deref]
    rw [hoi]
    dsimp only
    rw [hB]
    rfl
  · intro c hoi
    simp [step, hoi]
  · intro c b B hoi hB
    have hopos := ownersOn_pos hoi
    have hf : B.frees = 0 := frees_eq_zero_of_bound hInv hB (by omega)
    rcases (hInv.blockOk b B hB).alloc hf with ⟨u, hu1, hu2, hu3, hu4, hu5, hu6, hu7⟩
    have hmask : B.ref_count &&& (owner_marker - 1) = u := by
      have h := clearOwnerBit_ref_count hu6 hu5 (by omega)
      rw [clearOwnerBit_ref_count_def] at h
      exact h
    have hinc : (incRef B).ref_count = ownersOn st b * owner_marker + (u + 1) :=
      incRef_ref_count hu6 hu5 (by omega)
    have hbl : b < st.blocks.length := hInv.ownerRange i b hoi
    have hmask2 : (incRef B).ref_count &&& (owner_marker - 1) = u + 1 := by
      have h := clearOwnerBit_ref_count hinc hu5 (by omega)
      rw [clearOwnerBit_ref_count_def] at h
      exact h
    refine ⟨{ st with
      blocks := st.blocks.set b (incRef B),
      deps := st.deps ++ [⟨c, HandleState.live (some b)⟩] }, ?_, ?_, ?_⟩
    · simp only [step]
      rw [hoi]
      dsimp only
      rw [hB]
    · dsimp only
      exact List.getElem?_concat_length st.deps _
    · simp only [num_deps]
      rw [hoi]
      dsimp only
      rw [List.getElem?_set_self hbl]
      simp only [Option.map_some']
      rw [hmask2, hmask]

/-- A successful indexed lookup implies the index is in range. -/
theorem lookup_lt_length {α : Type} {l : List α} {i : Nat} {a : α}
    (h : l[i]? = some a) : i < l.length := by
  by_contra hlen
  rw [List.getElem?_eq_none (by simpa using Nat.le_of_not_lt hlen)] at h
  exact Option.noConfusion h

/-- An empty (moved-from) mutable dependent handle fails the first
`check_condition` on dereference. -/
theorem dep_deref_empty (st : MState) (j : Nat)
    (h : st.deps[j]? = some ⟨false, HandleState.live none⟩) :
    dep_deref st j = some Access.fault_moved_from := by
  simp only [dep_deref]
  rw [h]

/-- An empty (moved-from) read-only dependent handle fails the first
`check_condition` on dereference. -/
theorem dep_const_deref_empty (st : MState) (j : Nat)
    (h : st.deps[j]? = some ⟨true, HandleState.live none⟩) :
    dep_const_deref st j = some Access.fault_moved_from := by
  simp only [dep_const_deref]
  rw [h]

/-- C5 counterexample exists separately; this is the amended claim.  Under
the fast discipline, move-constructing a dependent increments the block's
count by one extra while the zombie source stays bound, and the source's
own destructor still decrements; consequently any fast-discipline run
that performs no dependent move-assignment and ends with every handle
destroyed has freed every block exactly once (no leak).  The extra
increment of a fast move-assignment, by contrast, is what the
counterexample shows unbalanced. -/
theorem C5_amended_fast_discipline_balances_without_move_assign
    (tr : List Op) (st : MState)
    (hrun : Reaches false tr st) (hlen : tr.length < owner_marker) :
    (∀ (j : Nat) (c : Bool) (b : Nat) (B : Block) (st2 : MState),
      st.deps[j]? = some ⟨c, HandleState.live (some b)⟩ → st.blocks[b]? = some B →
      step false st (Op.moveDepCtor j) = some st2 →
      (st2.blocks[b]?).map Block.ref_count = some ((B.ref_count + 1) % wordMod) ∧
      st2.deps[j]? = some ⟨c, HandleState.live (some b)⟩ ∧
      st2.deps[st.deps.length]? = some ⟨c, HandleState.live (some b)⟩) ∧
    (∀ (j : Nat) (c : Bool) (b : Nat) (B : Block) (st2 : MState),
      st.deps[j]? = some ⟨c, HandleState.live (some b)⟩ → st.blocks[b]? = some B →
      step false st (Op.destroyDep j) = some st2 →
      (st2.blocks[b]?).map Block.ref_count
        = some ((B.ref_count + (wordMod - 1)) % wordMod)) ∧
    ((∀ op ∈ tr, ∀ (j k : Nat), op ≠ Op.moveDepAssign j k) →
      (∀ h ∈ st.owners, h = HandleState.dead) →
      (∀ d ∈ st.deps, d.hs = HandleState.dead) →
      ∀ (b : Nat) (B : Block), st.blocks[b]? = some B → B.frees = 1) := by
  refine ⟨?_, ?_, ?_⟩
  · intro j c b B st2 hdj hB hst
    have hjl : j < st.deps.length := lookup_lt_length hdj
    have hbl : b < st.blocks.length := lookup_lt_length hB
    simp only [step] at hst
    rw [hdj] at hst
    dsimp only at hst
    rw [hB] at hst
    rw [← Option.some.inj hst]
    refine ⟨?_, ?_, ?_⟩
    · dsimp only
      rw [List.getElem?_set_self hbl]
      simp only [Option.map_some']
      rw [incRef_ref_count_def]
    · dsimp only
      rw [List.getElem?_append_left hjl]
      exact hdj
    · dsimp only
      exact List.getElem?_concat_length st.deps _
  · intro j c b B st2 hdj hB hst
    have hbl : b < st.blocks.length := lookup_lt_length hB
    simp only [step] at hst
    rw [hdj] at hst
    dsimp only at hst
    rw [hB] at hst
    rw [← Option.some.inj hst]
    dsimp only
    rw [List.getElem?_set_self hbl]
    simp only [Option.map_some']
    rw [depRelease_ref_count, decRef_ref_count_def]
  · intro hma hod hdd b B hB
    have hInv := reaches_inv_bal hrun hlen (Or.inr hma)
    have hown0 : ownersOn st b = 0 := by
      rw [ownersOn, List.countP_eq_zero]
      intro h hm
      rw [hod h hm]
      simp
    have hdep0 : depsOn st b = 0 := by
      rw [depsOn, List.countP_eq_zero]
      intro d hm
      rw [hdd d hm]
      simp
    rcases Nat.lt_or_ge B.frees 1 with hflt | hfge
    · exfalso
      rcases (hInv.blockOk b B hB).alloc (by omega) with ⟨u, hu1, hu2, hu3, hu4, hu5, hu6, hu7⟩
      have hu := hu3 trivial
      omega
    · have hle := (hInv.blockOk b B hB).frees_le
      omega

/-- C6 counterexample exists separately; this is the amended claim.  Under
the safe discipline: move-construction leaves all blocks (hence every
dependent count) unchanged, the source handle becomes empty and both
dereference variants on it fail the moved-from check, while the new
handle takes over the source's binding.  Move-assignment swaps the two
handles' bindings without touching any block, so the source ends up
holding the target's former binding — it is empty (and its dereference
checked-faulting) only when the target was empty. -/
theorem C6_amended_safe_discipline_move_semantics (st : MState) (j k : Nat) :
    (∀ (c : Bool) (s : Option Nat) (st2 : MState),
      st.deps[j]? = some ⟨c, HandleState.live s⟩ →
      step true st (Op.moveDepCtor j) = some st2 →
      st2.blocks = st.blocks ∧
      st2.deps[j]? = some ⟨c, HandleState.live none⟩ ∧
      st2.deps[st.deps.length]? = some ⟨c, HandleState.live s⟩ ∧
      (c = false → dep_deref st2 j = some Access.fault_moved_from) ∧
      (c = true → dep_const_deref st2 j = some Access.fault_moved_from)) ∧
    (∀ (cj ck : Bool) (sj sk : Option Nat) (st2 : MState),
      st.deps[j]? = some ⟨cj, HandleState.live sj⟩ →
      st.deps[k]? = some ⟨ck, HandleState.live sk⟩ → cj = ck →
      step true st (Op.moveDepAssign j k) = some st2 →
      st2.blocks = st.blocks ∧
      st2.deps[k]? = some ⟨ck, HandleState.live sj⟩ ∧
      (j ≠ k → st2.deps[j]? = some ⟨cj, HandleState.live sk⟩) ∧
      (sj = none →
        (ck = false → dep_deref st2 k = some Access.fault_moved_from) ∧
        (ck = true → dep_const_deref st2 k = some Access.fault_moved_from))) := by
  constructor
  · intro c s st2 hdj hst
    have hjl : j < st.deps.length := lookup_lt_length hdj
    simp only [step] at hst
    rw [hdj] at hst
    rw [← Option.some.inj hst]
    have hj2 : ((st.deps.set j ⟨c, HandleState.live none⟩)
        ++ [(⟨c, HandleState.live s⟩ : DepHandle)])[j]?
        = some ⟨c, HandleState.live none⟩ := by
      rw [List.getElem?_append_left (by rw [List.length_set]; exact hjl)]
      exact List.getElem?_set_self hjl
    have h3 : ((st.deps.set j ⟨c, HandleState.live none⟩)
        ++ [(⟨c, HandleState.live s⟩ : DepHandle)])[st.deps.length]?
        = some ⟨c, HandleState.live s⟩ := by
      have h := List.getElem?_concat_length
        (st.deps.set j ⟨c, HandleState.live none⟩) (⟨c, HandleState.live s⟩ : DepHandle)
      rw [List.length_set] at h
      exact h
    refine ⟨rfl, hj2, h3, ?_, ?_⟩
    · intro hc
      subst hc
      exact dep_deref_empty _ j hj2
    · intro hc
      subst hc
      exact dep_const_deref_empty _ j hj2
  · intro cj ck sj sk st2 hdj hdk hcc hst
    have hjl : j < st.deps.length := lookup_lt_length hdj
    have hkl : k < st.deps.length := lookup_lt_length hdk
    simp only [step] at hst
    rw [hdj, hdk] at hst
    dsimp only at hst
    rw [if_pos hcc] at hst
    rw [← Option.some.inj hst]
    have h2 : ((st.deps.set j ⟨cj, HandleState.live sk⟩).set k
        ⟨ck, HandleState.live sj⟩)[k]? = some ⟨ck, HandleState.live sj⟩ :=
      List.getElem?_set_self (by rw [List.length_set]; exact hkl)
    refine ⟨rfl, h2, ?_, ?_⟩
    · intro hjk
      rw [List.getElem?_set_ne (Ne.symm hjk)]
      exact List.getElem?_set_self hjl
    · intro hsj
      subst hsj
      constructor
      · intro hck
        subst hck
        exact dep_deref_empty _ k h2
      · intro hck
        subst hck
        exact dep_const_deref_empty _ k h2

/-- Witness for C2: after `trOwnerGone` (owner destroyed with two live
dependents) the claim's hypotheses hold for block 0 and the conclusion
follows by applying the theorem there. -/
theorem C2_block_freed_exactly_by_last_dependent_witness :
    (Reaches true trOwnerGone (stateAfter true trOwnerGone) ∧
      trOwnerGone.length < owner_marker ∧
      (true = true ∨ ∀ op ∈ trOwnerGone, ∀ j k, op ≠ Op.moveDepAssign j k) ∧
      (stateAfter true trOwnerGone).blocks[0]? = some ⟨2, 1, 0, "Foo"⟩) ∧
    ((⟨2, 1, 0, "Foo"⟩ : Block).frees ≤ 1 ∧
     (∀ (i : Nat) (st2 : MState) (B2 : Block),
       (stateAfter true trOwnerGone).owners[i]? = some (HandleState.live (some 0)) →
       1 ≤ depsOn (stateAfter true trOwnerGone) 0 →
       step true (stateAfter true trOwnerGone) (Op.destroyOwner i) = some st2 →
       st2.blocks[0]? = some B2 → B2.frees = 0) ∧
     (∀ (j : Nat) (c : Bool) (st2 : MState) (B2 : Block),
       (stateAfter true trOwnerGone).deps[j]? = some ⟨c, HandleState.live (some 0)⟩ →
       ownersOn (stateAfter true trOwnerGone) 0 = 0 →
       step true (stateAfter true trOwnerGone) (Op.destroyDep j) = some st2 →
       st2.blocks[0]? = some B2 →
       B2.frees = if depsOn (stateAfter true trOwnerGone) 0 = 1 then 1 else 0)) :=
  ⟨⟨rfl, by decide, Or.inl rfl, by decide⟩,
    C2_block_freed_exactly_by_last_dependent true trOwnerGone
      (stateAfter true trOwnerGone) rfl (by decide) (Or.inl rfl) 0
      ⟨2, 1, 0, "Foo"⟩ (by decide)⟩

/-- Counterexample to C2 as stated unconditionally.  Fast discipline, one
owner, two dependents, one dependent move-assignment: after the prefix
`trC2Pre` the owner is still alive and exactly one dependent (handle 1)
is alive and bound to block 0, so N = 1; yet after destroying the owner
and then that last dependent (`trC2Leak`) the block ends at
`⟨1, 1, 0, "v"⟩` — its count stuck at 1 and `frees = 0`: the last
remaining Dependent's destructor did not free it, and nothing ever
will. -/
theorem C2_counterexample_last_dependent_does_not_free :
    Reaches false trC2Leak (stateAfter false trC2Leak) ∧
    (stateAfter false trC2Pre).owners[0]? = some (HandleState.live (some 0)) ∧
    (stateAfter false trC2Pre).deps[1]? = some ⟨false, HandleState.live (some 0)⟩ ∧
    depsOn (stateAfter false trC2Pre) 0 = 1 ∧
    (∀ h ∈ (stateAfter false trC2Leak).owners, h = HandleState.dead) ∧
    (∀ d ∈ (stateAfter false trC2Leak).deps, d.hs = HandleState.dead) ∧
    (stateAfter false trC2Leak).blocks = [⟨1, 1, 0, "v"⟩] :=
  ⟨rfl, by decide, by decide, by decide, by decide, by decide, by decide⟩

/-- Witness for C3: the marker lifecycle conclusions hold in the state
reached by `trOne` (one live owner). -/
theorem C3_owner_marker_lifecycle_witness :
    (Reaches true trOne (stateAfter true trOne) ∧ trOne.length + 1 < owner_marker) ∧
    ((∀ (v : String) (st2 : MState),
        step true (stateAfter true trOne) (Op.newOwner v) = some st2 →
        st2.blocks[(stateAfter true trOne).blocks.length]?
          = some ⟨owner_marker, 0, 0, v⟩) ∧
     (∀ (b : Nat) (B : Block),
        (stateAfter true trOne).blocks[b]? = some B → B.frees = 0 →
        (B.has_owner = true ↔ ownersOn (stateAfter true trOne) b = 1)) ∧
     (∀ (op : Op) (st2 : MState) (b : Nat) (B B2 : Block),
        step true (stateAfter true trOne) op = some st2 →
        (stateAfter true trOne).blocks[b]? = some B →
        st2.blocks[b]? = some B2 → B.has_owner = false → B2.has_owner = false) ∧
     (∀ (i b : Nat) (B : Block) (st2 : MState) (B2 : Block),
        (stateAfter true trOne).owners[i]? = some (HandleState.live (some b)) →
        (stateAfter true trOne).blocks[b]? = some B →
        step true (stateAfter true trOne) (Op.destroyOwner i) = some st2 →
        st2.blocks[b]? = some B2 →
        B2.has_owner = false ∧ B2.valueDestroys = 1 ∧
        B2.frees = if B.ref_count &&& (owner_marker - 1) = 0 then 1 else 0)) :=
  ⟨⟨rfl, by decide⟩,
    C3_owner_marker_lifecycle true trOne (stateAfter true trOne) rfl (by decide)⟩

/-- Witness for C7: after `trOwnerGone` the owner of block 0 is gone, the
marker is clear, and both dependents' dereferences report the
owner-deleted fault. -/
theorem C7_deref_after_owner_destroyed_is_caught_witness :
    (Reaches true trOwnerGone (stateAfter true trOwnerGone) ∧
      trOwnerGone.length < owner_marker ∧
      (stateAfter true trOwnerGone).blocks[0]? = some ⟨2, 1, 0, "Foo"⟩ ∧
      ownersOn (stateAfter true trOwnerGone) 0 = 0) ∧
    (∀ (j : Nat) (d : DepHandle), (stateAfter true trOwnerGone).deps[j]? = some d →
      d.hs = HandleState.live (some 0) →
      (⟨2, 1, 0, "Foo"⟩ : Block).has_owner = false ∧
      (d.isConst = false →
        dep_deref (stateAfter true trOwnerGone) j = some Access.fault_owner_deleted) ∧
      (d.isConst = true →
        dep_const_deref (stateAfter true trOwnerGone) j
          = some Access.fault_owner_deleted)) :=
  ⟨⟨rfl, by decide, by decide, by decide⟩,
    C7_deref_after_owner_destroyed_is_caught true trOwnerGone
      (stateAfter true trOwnerGone) rfl (by decide) 0 ⟨2, 1, 0, "Foo"⟩
      (by decide) (by decide)⟩

/-- Witness for C8: owner handle 0 after `trOne` is non-empty; its access
and make_dependent behave as claimed. -/
theorem C8_owner_access_and_make_dependent_checked_witness :
    (Reaches true trOne (stateAfter true trOne) ∧ trOne.length + 1 < owner_marker) ∧
    ((owned_deref (stateAfter true trOne) 0 = some Access.fault_moved_from ↔
        (stateAfter true trOne).owners[0]? = some (HandleState.live none)) ∧
     (∀ (b : Nat),
        (stateAfter true trOne).owners[0]? = some (HandleState.live (some b)) →
        ∃ B, (stateAfter true trOne).blocks[b]? = some B ∧ B.frees = 0 ∧
          B.valueDestroys = 0 ∧
          owned_deref (stateAfter true trOne) 0 = some (Access.ok B.value)) ∧
     (∀ (c : Bool),
        (stateAfter true trOne).owners[0]? = some (HandleState.live none) →
        step true (stateAfter true trOne) (Op.makeDep 0 c) = none) ∧
     (∀ (c : Bool) (b : Nat) (B : Block),
        (stateAfter true trOne).owners[0]? = some (HandleState.live (some b)) →
        (stateAfter true trOne).blocks[b]? = some B →
        ∃ st2, step true (stateAfter true trOne) (Op.makeDep 0 c) = some st2 ∧
          st2.deps[(stateAfter true trOne).deps.length]?
            = some ⟨c, HandleState.live (some b)⟩ ∧
          num_deps st2 0 = some ((B.ref_count &&& (owner_marker - 1)) + 1))) :=
  ⟨⟨rfl, by decide⟩,
    C8_owner_access_and_make_dependent_checked true trOne (stateAfter true trOne)
      rfl (by decide) 0⟩

/-- Witness for the amended C5: the fast-discipline run `trFastCtor`
(move-construction, no move-assignment, all handles destroyed) satisfies
the claim's hypotheses, so in particular its only block is freed exactly
once. -/
theorem C5_amended_fast_discipline_balances_without_move_assign_witness :
    (Reaches false trFastCtor (stateAfter false trFastCtor) ∧
      trFastCtor.length < owner_marker) ∧
    ((∀ (j : Nat) (c : Bool) (b : Nat) (B : Block) (st2 : MState),
        (stateAfter false trFastCtor).deps[j]? = some ⟨c, HandleState.live (some b)⟩ →
        (stateAfter false trFastCtor).blocks[b]? = some B →
        step false (stateAfter false trFastCtor) (Op.moveDepCtor j) = some st2 →
        (st2.blocks[b]?).map Block.ref_count = some ((B.ref_count + 1) % wordMod) ∧
        st2.deps[j]? = some ⟨c, HandleState.live (some b)⟩ ∧
        st2.deps[(stateAfter false trFastCtor).deps.length]?
          = some ⟨c, HandleState.live (some b)⟩) ∧
     (∀ (j : Nat) (c : Bool) (b : Nat) (B : Block) (st2 : MState),
        (stateAfter false trFastCtor).deps[j]? = some ⟨c, HandleState.live (some b)⟩ →
        (stateAfter false trFastCtor).blocks[b]? = some B →
        step false (stateAfter false trFastCtor) (Op.destroyDep j) = some st2 →
        (st2.blocks[b]?).map Block.ref_count
          = some ((B.ref_count + (wordMod - 1)) % wordMod)) ∧
     ((∀ op ∈ trFastCtor, ∀ (j k : Nat), op ≠ Op.moveDepAssign j k) →
        (∀ h ∈ (stateAfter false trFastCtor).owners, h = HandleState.dead) →
        (∀ d ∈ (stateAfter false trFastCtor).deps, d.hs = HandleState.dead) →
        ∀ (b : Nat) (B : Block),
          (stateAfter false trFastCtor).blocks[b]? = some B → B.frees = 1)) :=
  ⟨⟨rfl, by decide⟩,
    C5_amended_fast_discipline_balances_without_move_assign trFastCtor
      (stateAfter false trFastCtor) rfl (by decide)⟩

/-- Witness for the amended C6: the safe-discipline move semantics
instantiated at the state with one live dependent, moving handle 0 (also
as self-assignment target). -/
theorem C6_amended_safe_discipline_move_semantics_witness :
    (∀ (c : Bool) (s : Option Nat) (st2 : MState),
      (stateAfter true trOneLiveDep).deps[0]? = some ⟨c, HandleState.live s⟩ →
      step true (stateAfter true trOneLiveDep) (Op.moveDepCtor 0) = some st2 →
      st2.blocks = (stateAfter true trOneLiveDep).blocks ∧
      st2.deps[0]? = some ⟨c, HandleState.live none⟩ ∧
      st2.deps[(stateAfter true trOneLiveDep).deps.length]?
        = some ⟨c, HandleState.live s⟩ ∧
      (c = false → dep_deref st2 0 = some Access.fault_moved_from) ∧
      (c = true → dep_const_deref st2 0 = some Access.fault_moved_from)) ∧
    (∀ (cj ck : Bool) (sj sk : Option Nat) (st2 : MState),
      (stateAfter true trOneLiveDep).deps[0]? = some ⟨cj, HandleState.live sj⟩ →
      (stateAfter true trOneLiveDep).deps[0]? = some ⟨ck, HandleState.live sk⟩ →
      cj = ck →
      step true (stateAfter true trOneLiveDep) (Op.moveDepAssign 0 0) = some st2 →
      st2.blocks = (stateAfter true trOneLiveDep).blocks ∧
      st2.deps[0]? = some ⟨ck, HandleState.live sj⟩ ∧
      ((0 : Nat) ≠ (0 : Nat) → st2.deps[0]? = some ⟨cj, HandleState.live sk⟩) ∧
      (sj = none →
        (ck = false → dep_deref st2 0 = some Access.fault_moved_from) ∧
        (ck = true → dep_const_deref st2 0 = some Access.fault_moved_from))) :=
  C6_amended_safe_discipline_move_semantics (stateAfter true trOneLiveDep) 0 0

end OwnedPtr
